import Mathlib

/-!
Verification of the `recc` command-line wrapper (compiler command parsing,
dependency discovery, product derivation, path utilities and REAPI action
assembly) against its natural-language specification.

Strings are modelled as lists of characters (`Str`); C++ `std::string`
operations are translated to explicit list operations.  `std::set<std::string>`
values are modelled as sorted duplicate-free lists maintained by `setInsert`,
which mirrors the ordered-set semantics (including iteration order) exactly.
Fallible code is modelled in `Except`.
-/

namespace Recc

/-- A C++ `std::string` is modelled as a list of characters. -/
abbrev Str := List Char

/-- Conversion from a Lean string literal to the model type. -/
def str (s : String) : Str := s.data

/-- Strict lexicographic byte order on strings, matching `std::string`
`operator<` (characters compared as unsigned values; a proper prefix is
smaller than its extensions). -/
def lexLt : Str → Str → Bool
  | _, [] => false
  | [], _ :: _ => true
  | a :: as, b :: bs => a.toNat < b.toNat || (a.toNat = b.toNat && lexLt as bs)

/-- Insertion into a sorted duplicate-free list: the model of
`std::set<std::string>::insert`. -/
def setInsert (x : Str) : List Str → List Str
  | [] => [x]
  | y :: ys =>
    if lexLt x y then x :: y :: ys
    else if lexLt y x then y :: setInsert x ys
    else y :: ys

/-- Building a `std::set<std::string>` from a list of insertions. -/
def setOfList (l : List Str) : List Str := l.foldl (fun s x => setInsert x s) []

/-- Membership in a modelled set, as used by `std::set::count`/`find`. -/
def setMem (x : Str) (s : List Str) : Bool := s.contains x

theorem lexLt_trans : ∀ {a b c : Str},
    lexLt a b = true → lexLt b c = true → lexLt a c = true := by
  intro a
  induction a with
  | nil =>
    intro b c hab hbc
    cases b with
    | nil => simp [lexLt] at hab
    | cons y ys =>
      cases c with
      | nil => simp [lexLt] at hbc
      | cons z zs => simp [lexLt]
  | cons x xs ih =>
    intro b c hab hbc
    cases b with
    | nil => simp [lexLt] at hab
    | cons y ys =>
      cases c with
      | nil => simp [lexLt] at hbc
      | cons z zs =>
        simp [lexLt] at hab hbc ⊢
        rcases hab with h₁ | ⟨he₁, h₁⟩
        · rcases hbc with h₂ | ⟨he₂, h₂⟩
          · exact Or.inl (Nat.lt_trans h₁ h₂)
          · exact Or.inl (he₂ ▸ h₁)
        · rcases hbc with h₂ | ⟨he₂, h₂⟩
          · exact Or.inl (he₁ ▸ h₂)
          · exact Or.inr ⟨he₁.trans he₂, ih h₁ h₂⟩

theorem lexLt_irrefl : ∀ (a : Str), lexLt a a = false := by
  intro a
  induction a with
  | nil => simp [lexLt]
  | cons x xs ih => simp [lexLt, ih]

theorem lexLt_asymm {a b : Str} (h : lexLt a b = true) : lexLt b a = false := by
  by_contra hc
  have hba : lexLt b a = true := by
    cases hx : lexLt b a
    · exact absurd hx hc
    · rfl
  have := lexLt_trans h hba
  rw [lexLt_irrefl] at this
  exact Bool.noConfusion this

/-- A proper prefix of a string is lexicographically smaller. -/
theorem lexLt_of_proper_prefix : ∀ {a b : Str},
    a <+: b → a ≠ b → lexLt a b = true := by
  intro a
  induction a with
  | nil =>
    intro b hp hne
    cases b with
    | nil => exact absurd rfl hne
    | cons y ys => simp [lexLt]
  | cons x xs ih =>
    intro b hp hne
    cases b with
    | nil =>
      exact absurd (List.eq_nil_of_prefix_nil hp) (by simp)
    | cons y ys =>
      rw [List.cons_prefix_cons] at hp
      obtain ⟨hxy, hrest⟩ := hp
      subst hxy
      have hne' : xs ≠ ys := by
        intro hcontra
        exact hne (by rw [hcontra])
      simp [lexLt]
      exact ih hrest hne'

/-! ## Parse rules and option matching (`parsedcommandfactory.cpp`)

Handlers from `struct ParseRule` are represented by an enumeration; the
behaviour of each handler is given later by `applyRule`.  A
`CompilerParseRulesMap` (`std::map` ordered by `std::greater<std::string>`)
is modelled as an association list sorted in descending lexicographic key
order, obtained by `sortRulesDesc` from the declaration-order entry list. -/

/-- Tags for the handler functions of `struct ParseRule`. -/
inductive Rule where
  | simple
  | interfersWithDeps
  | isInputPath
  | isEqualInputPath
  | isCompile
  | redirectsOutput
  | redirectsDepsOutput
  | depsRuleTarget
  | isPreprocessorArg
  | isMacro
  | setsGccLanguage
  | isUnsupported
  | coverageOutput
  | redirectsCoverageOutput
  | splitDwarf
  | solarisPhase
  | native
  | param
  | ldLibrary
  | ldLibraryPath
  | ldDynamic
  | ldStatic
  | ldState
  | ldEmulation
  deriving DecidableEq, Repr

/-- One entry of a rule table. -/
abbrev RuleEntry := Str × Rule

/-- Inserting an entry into a list sorted by descending key order
(`std::map` with `std::greater<std::string>`). -/
def insertRuleDesc (p : RuleEntry) : List RuleEntry → List RuleEntry
  | [] => [p]
  | q :: qs =>
    if lexLt p.1 q.1 then q :: insertRuleDesc p qs else p :: q :: qs

/-- Sorting a declaration-order rule list into the map's key order. -/
def sortRulesDesc (l : List RuleEntry) : List RuleEntry :=
  l.foldr insertRuleDesc []

/-- The `GccRules` table of `parsedcommandfactory.cpp`, in declaration
order. -/
def gccRulesList : List RuleEntry := [
  (str "-MD", .interfersWithDeps),
  (str "-MMD", .interfersWithDeps),
  (str "-MG", .interfersWithDeps),
  (str "-MP", .interfersWithDeps),
  (str "-MV", .interfersWithDeps),
  (str "-Wmissing-include-dirs", .interfersWithDeps),
  (str "-Werror=missing-include-dirs", .interfersWithDeps),
  (str "-c", .isCompile),
  (str "-D", .isMacro),
  (str "-o", .redirectsOutput),
  (str "-MF", .redirectsDepsOutput),
  (str "-MT", .depsRuleTarget),
  (str "-MQ", .depsRuleTarget),
  (str "--coverage", .coverageOutput),
  (str "-ftest-coverage", .coverageOutput),
  (str "-fprofile-note", .redirectsCoverageOutput),
  (str "-include", .isInputPath),
  (str "-imacros", .isInputPath),
  (str "-I", .isInputPath),
  (str "-iquote", .isInputPath),
  (str "-isystem", .isInputPath),
  (str "-idirafter", .isInputPath),
  (str "-iprefix", .isInputPath),
  (str "-isysroot", .isInputPath),
  (str "--sysroot", .isEqualInputPath),
  (str "-Wp,", .isPreprocessorArg),
  (str "-Xpreprocessor", .isPreprocessorArg),
  (str "-x", .setsGccLanguage),
  (str "-gsplit-dwarf", .splitDwarf),
  (str "-fprofile-use", .isUnsupported),
  (str "-fauto-profile", .isUnsupported),
  (str "-fbranch-probabilities", .isUnsupported),
  (str "-specs", .isUnsupported),
  (str "-M", .isUnsupported),
  (str "-MM", .isUnsupported),
  (str "-E", .isUnsupported),
  (str "-S", .isUnsupported),
  (str "-save-temps", .isUnsupported),
  (str "-fdump", .isUnsupported),
  (str "-march", .native),
  (str "-mtune", .native),
  (str "-mcpu", .native),
  (str "--param", .param),
  (str "-z", .param)]

/-- The `GccPreprocessorRules` table, in declaration order. -/
def gccPreprocessorRulesList : List RuleEntry := [
  (str "-MD", .interfersWithDeps),
  (str "-MMD", .interfersWithDeps),
  (str "-M", .isUnsupported),
  (str "-MM", .isUnsupported),
  (str "-MG", .interfersWithDeps),
  (str "-MP", .interfersWithDeps),
  (str "-MV", .interfersWithDeps),
  (str "-o", .redirectsOutput),
  (str "-MF", .redirectsDepsOutput),
  (str "-MT", .depsRuleTarget),
  (str "-MQ", .depsRuleTarget),
  (str "-include", .isInputPath),
  (str "-imacros", .isInputPath),
  (str "-I", .isInputPath),
  (str "-iquote", .isInputPath),
  (str "-isystem", .isInputPath),
  (str "-idirafter", .isInputPath),
  (str "-iprefix", .isInputPath),
  (str "-isysroot", .isInputPath),
  (str "--sysroot", .isEqualInputPath)]

/-- The `SunCPPRules` table, in declaration order. -/
def sunCPPRulesList : List RuleEntry := [
  (str "-Qoption", .solarisPhase),
  (str "-xMD", .interfersWithDeps),
  (str "-xMMD", .interfersWithDeps),
  (str "-D", .isMacro),
  (str "-o", .redirectsOutput),
  (str "-xMF", .redirectsDepsOutput),
  (str "-I", .isInputPath),
  (str "-include", .isInputPath),
  (str "-c", .isCompile),
  (str "-xarch", .simple),
  (str "-xar", .isUnsupported),
  (str "-xpch", .isUnsupported),
  (str "-xprofile", .isUnsupported),
  (str "-###", .isUnsupported),
  (str "-xM", .isUnsupported),
  (str "-xM1", .isUnsupported),
  (str "-E", .isUnsupported),
  (str "-S", .isUnsupported)]

/-- The `AixRules` table, in declaration order. -/
def aixRulesList : List RuleEntry := [
  (str "-qsyntaxonly", .interfersWithDeps),
  (str "-M", .interfersWithDeps),
  (str "-qmakedep", .interfersWithDeps),
  (str "-qmakedep=gcc", .interfersWithDeps),
  (str "-D", .isMacro),
  (str "-o", .redirectsOutput),
  (str "-MF", .redirectsDepsOutput),
  (str "-qexpfile", .redirectsOutput),
  (str "-qinclude", .isInputPath),
  (str "-I", .isInputPath),
  (str "-qcinc", .isInputPath),
  (str "-c", .isCompile),
  (str "-#", .isUnsupported),
  (str "-qshowpdf", .isUnsupported),
  (str "-qdump_class_hierachy", .isUnsupported),
  (str "-E", .isUnsupported),
  (str "-S", .isUnsupported)]

/-- The `LdRules` table, in declaration order (non-Solaris build). -/
def ldRulesList : List RuleEntry := [
  (str "-o", .redirectsOutput),
  (str "-L", .ldLibraryPath),
  (str "--library-path", .ldLibraryPath),
  (str "-l", .ldLibrary),
  (str "--library", .ldLibrary),
  (str "-rpath-link", .ldLibraryPath),
  (str "--rpath-link", .ldLibraryPath),
  (str "-rpath", .ldLibraryPath),
  (str "--rpath", .ldLibraryPath),
  (str "-R", .ldLibraryPath),
  (str "-Bdynamic", .ldDynamic),
  (str "-dy", .ldDynamic),
  (str "-call_shared", .ldDynamic),
  (str "-Bstatic", .ldStatic),
  (str "-dn", .ldStatic),
  (str "-non_shared", .ldStatic),
  (str "-static", .ldStatic),
  (str "--push-state", .ldState),
  (str "--pop-state", .ldState),
  (str "-m", .ldEmulation),
  (str "-soname", .param),
  (str "--soname", .param),
  (str "-z", .param),
  (str "--dependency-file", .isUnsupported),
  (str "--just-symbols", .isUnsupported),
  (str "-T", .isUnsupported),
  (str "--script", .isUnsupported),
  (str "-dT", .isUnsupported),
  (str "--default-script", .isUnsupported),
  (str "-Y", .isUnsupported),
  (str "--dynamic-list", .isUnsupported),
  (str "-Map", .isUnsupported),
  (str "--error-handling-script", .isUnsupported),
  (str "--out-implib", .isUnsupported),
  (str "--retain-symbols-file", .isUnsupported),
  (str "--sysroot", .isUnsupported),
  (str "--version-script", .isUnsupported),
  (str "-a", .isUnsupported)]

/-- The rule maps as the `std::map` holds them: sorted in descending key
order. -/
def gccRulesMap : List RuleEntry := sortRulesDesc gccRulesList

/-- Sorted `GccPreprocessorRules` map. -/
def gccPreprocessorRulesMap : List RuleEntry :=
  sortRulesDesc gccPreprocessorRulesList

/-- Sorted `SunCPPRules` map. -/
def sunCPPRulesMap : List RuleEntry := sortRulesDesc sunCPPRulesList

/-- Sorted `AixRules` map. -/
def aixRulesMap : List RuleEntry := sortRulesDesc aixRulesList

/-- Sorted `LdRules` map. -/
def ldRulesMap : List RuleEntry := sortRulesDesc ldRulesList

/-- Exact-key lookup, the model of `options.count`/`options.at`. -/
def lookupRule (k : Str) : List RuleEntry → Option Rule
  | [] => none
  | p :: ps => if p.1 = k then some p.2 else lookupRule k ps

/-- The substring-search loop of `matchCompilerOptions`: iterate over the
map in its key order and return the first entry whose key is a prefix of
the token. -/
def findFirstMatch (tok : Str) : List RuleEntry → Option RuleEntry
  | [] => none
  | p :: ps => if p.1.isPrefixOf tok then some p else findFirstMatch tok ps

/-- The C `isspace` predicate (default locale), used by
`matchCompilerOptions` to erase spaces from the candidate key. -/
def isCSpace (c : Char) : Bool :=
  c = ' ' || c = '\t' || c = '\n' || c = '\x0b' || c = '\x0c' || c = '\r'

/-- Trimming of a token before the exact-match lookup: keep everything
before the first `=`, then erase whitespace characters. -/
def cleanOption (tok : Str) : Str :=
  (tok.takeWhile (fun c => c ≠ '=')).filter (fun c => !isCSpace c)

/-- Model of `ParseRuleHelper::matchCompilerOptions`: for a token starting
with `-` or `+`, first try an exact lookup of the trimmed token, then scan
the map in its (descending) key order for the first key that is a prefix of
the untrimmed token. -/
def matchCompilerOptions (tok : Str) (rules : List RuleEntry) :
    Str × Option Rule :=
  if tok.head? = some '-' || tok.head? = some '+' then
    let tmp := cleanOption tok
    match lookupRule tmp rules with
    | some r => (tmp, some r)
    | none =>
      match findFirstMatch tok rules with
      | some p => (p.1, some p.2)
      | none => (str "", none)
  else (str "", none)

/-- Adjacent descending-key check for a rule list (what being an
iteration of a `std::map<…, std::greater<…>>` guarantees). -/
def rulesSortedDesc : List RuleEntry → Bool
  | [] => true
  | [_] => true
  | p :: q :: rest => lexLt q.1 p.1 && rulesSortedDesc (q :: rest)

theorem rulesSortedDesc_tail {p : RuleEntry} {l : List RuleEntry}
    (h : rulesSortedDesc (p :: l) = true) : rulesSortedDesc l = true := by
  cases l with
  | nil => rfl
  | cons q rest =>
    simp [rulesSortedDesc] at h
    simp [h.2]

theorem rulesSortedDesc_head_gt {p : RuleEntry} {l : List RuleEntry}
    (h : rulesSortedDesc (p :: l) = true) :
    ∀ q ∈ l, lexLt q.1 p.1 = true := by
  induction l generalizing p with
  | nil => intro q hq; simp at hq
  | cons r rest ih =>
    intro q hq
    simp [rulesSortedDesc] at h
    rcases List.mem_cons.mp hq with hqr | hq'
    · subst hqr; exact h.1
    · exact lexLt_trans (ih h.2 q hq') h.1

theorem findFirstMatch_mem {tok : Str} {l : List RuleEntry} {p : RuleEntry}
    (h : findFirstMatch tok l = some p) :
    p ∈ l ∧ p.1.isPrefixOf tok = true := by
  induction l with
  | nil => simp [findFirstMatch] at h
  | cons q rest ih =>
    by_cases hq : q.1.isPrefixOf tok = true
    · simp [findFirstMatch, hq] at h
      subst h
      exact ⟨List.mem_cons_self _ _, hq⟩
    · simp [findFirstMatch, hq] at h
      obtain ⟨hmem, hpfx⟩ := ih h
      exact ⟨List.mem_cons_of_mem _ hmem, hpfx⟩

/-- In a descending-sorted rule list, the first key that is a prefix of the
token is the longest such key. -/
theorem findFirstMatch_longest {tok : Str} {l : List RuleEntry} {p : RuleEntry}
    (hsorted : rulesSortedDesc l = true)
    (h : findFirstMatch tok l = some p) :
    ∀ q ∈ l, q.1.isPrefixOf tok = true → q.1.length ≤ p.1.length := by
  induction l with
  | nil => simp [findFirstMatch] at h
  | cons hd rest ih =>
    by_cases hhd : hd.1.isPrefixOf tok = true
    · simp only [findFirstMatch, hhd, if_pos, Option.some.injEq] at h
      subst h
      intro q hq hqpfx
      rcases List.mem_cons.mp hq with hq | hq
      · subst hq; exact le_refl _
      · by_contra hlen
        push_neg at hlen
        have hple : hd.1.length ≤ q.1.length := le_of_lt hlen
        have hpq : hd.1 <+: q.1 :=
          List.prefix_of_prefix_length_le
            (List.isPrefixOf_iff_prefix.mp hhd)
            (List.isPrefixOf_iff_prefix.mp hqpfx) hple
        have hne : hd.1 ≠ q.1 := by
          intro hcontra
          rw [hcontra] at hlen
          exact lt_irrefl _ hlen
        have hlt : lexLt hd.1 q.1 = true := lexLt_of_proper_prefix hpq hne
        have hgt : lexLt q.1 hd.1 = true := rulesSortedDesc_head_gt hsorted q hq
        rw [lexLt_asymm hlt] at hgt
        exact Bool.noConfusion hgt
    · simp only [findFirstMatch, hhd, if_neg, Bool.false_eq_true,
        if_false] at h
      intro q hq hqpfx
      rcases List.mem_cons.mp hq with hq | hq
      · subst hq; exact absurd hqpfx hhd
      · exact ih (rulesSortedDesc_tail hsorted) h q hq hqpfx

/-- C1.  When a `-`/`+` token has no exact rule-table match after trimming,
`matchCompilerOptions` dispatches to the table entry whose key is the
longest prefix of the token: the returned key belongs to the table, is a
prefix of the token, and every table key that is a prefix of the token is
no longer than it.  In particular, on the GCC rule map `-xassembler`
dispatches to the `-x` handler and `-MFfoo` to the `-MF` handler (not
`-M`). -/
theorem parse_dispatch_longest_matching_key :
    (∀ (rules : List RuleEntry) (tok k : Str) (r : Rule),
      rulesSortedDesc rules = true →
      (tok.head? = some '-' ∨ tok.head? = some '+') →
      lookupRule (cleanOption tok) rules = none →
      matchCompilerOptions tok rules = (k, some r) →
      (k, r) ∈ rules ∧ k.isPrefixOf tok = true ∧
        ∀ q ∈ rules, q.1.isPrefixOf tok = true → q.1.length ≤ k.length) ∧
    matchCompilerOptions (str "-xassembler") gccRulesMap =
      (str "-x", some Rule.setsGccLanguage) ∧
    matchCompilerOptions (str "-MFfoo") gccRulesMap =
      (str "-MF", some Rule.redirectsDepsOutput) := by
  refine ⟨?_, by decide, by decide⟩
  intro rules tok k r hsorted hhead hexact hmatch
  have hcond : (tok.head? = some '-' || tok.head? = some '+' : Bool) = true := by
    rcases hhead with h | h <;> simp [h]
  cases hfind : findFirstMatch tok rules with
  | none =>
    rw [matchCompilerOptions, if_pos hcond] at hmatch
    simp only [hexact, hfind] at hmatch
    simp at hmatch
  | some p =>
    obtain ⟨kk, rr⟩ := p
    rw [matchCompilerOptions, if_pos hcond] at hmatch
    simp only [hexact, hfind] at hmatch
    simp at hmatch
    obtain ⟨hk, hr⟩ := hmatch
    subst hk
    subst hr
    obtain ⟨hmem, hpfx⟩ := findFirstMatch_mem hfind
    exact ⟨hmem, hpfx, findFirstMatch_longest hsorted hfind⟩

/-- Concrete instantiation of `parse_dispatch_longest_matching_key` on the
GCC rule map and the token `-MFfoo`. -/
theorem parse_dispatch_longest_matching_key_witness :
    ((str "-MF", Rule.redirectsDepsOutput) ∈ gccRulesMap ∧
      (str "-MF").isPrefixOf (str "-MFfoo") = true ∧
      ∀ q ∈ gccRulesMap, q.1.isPrefixOf (str "-MFfoo") = true →
        q.1.length ≤ (str "-MF").length) :=
  parse_dispatch_longest_matching_key.1 gccRulesMap (str "-MFfoo")
    (str "-MF") Rule.redirectsDepsOutput (by decide) (Or.inl (by decide))
    (by decide) (by decide)

/-! ## Make-rule dependency parsing (`deps.cpp`,
`Deps::dependencies_from_make_rules`) -/

/-- Parser state of `dependencies_from_make_rules`: the two character-class
flags, the filename being accumulated, and the result set. -/
structure DepState where
  sawColon : Bool
  sawBackslash : Bool
  cur : Str
  acc : List Str
  deriving DecidableEq, Repr

/-- Flushing the current filename into the result set (the
`if (!current_filename.empty()) result.insert(...)` idiom). -/
def depFlush (cur : Str) (acc : List Str) : List Str :=
  if cur ≠ [] then setInsert cur acc else acc

/-- One character step of the `dependencies_from_make_rules` loop. -/
def depStep (isSunFormat : Bool) (st : DepState) (c : Char) : DepState :=
  if st.sawBackslash then
    { st with
      sawBackslash := false
      cur := if c ≠ '\n' ∧ st.sawColon then st.cur ++ [c] else st.cur }
  else if c = '\\' then { st with sawBackslash := true }
  else if c = ':' ∧ st.sawColon = false then { st with sawColon := true }
  else if c = '\n' then
    { st with sawColon := false, cur := [], acc := depFlush st.cur st.acc }
  else if c = ' ' then
    if isSunFormat then
      { st with
        cur := if st.cur ≠ [] ∧ st.sawColon then st.cur ++ [c] else st.cur }
    else { st with cur := [], acc := depFlush st.cur st.acc }
  else if st.sawColon then { st with cur := st.cur ++ [c] }
  else st

/-- The fold of the parser over a rule text from the initial state. -/
def depRun (rules : Str) (isSunFormat : Bool) : DepState :=
  rules.foldl (depStep isSunFormat) ⟨false, false, [], []⟩

/-- Model of `Deps::dependencies_from_make_rules`: fold the step function
over the rule text and flush the trailing filename. -/
def dependencies_from_make_rules (rules : Str) (isSunFormat : Bool) :
    List Str :=
  depFlush (depRun rules isSunFormat).cur (depRun rules isSunFormat).acc

/-- A piece of inter-filename formatting: a literal space or a
backslash-newline continuation. -/
inductive SepTok where
  | sp
  | cont
  deriving DecidableEq, Repr

/-- Characters contributed by one formatting token. -/
def sepTokChars : SepTok → Str
  | .sp => [' ']
  | .cont => ['\\', '\n']

/-- Characters of a formatting run. -/
def sepChars : List SepTok → Str
  | [] => []
  | t :: ts => sepTokChars t ++ sepChars ts

/-- Concatenated characters of the formatted tail `sep₁ f₁ sep₂ f₂ …`. -/
def chunksStr : List (List SepTok × Str) → Str
  | [] => []
  | p :: ps => (sepChars p.1 ++ p.2) ++ chunksStr ps

/-- Rendering of a one-rule GNU Make rule body `target: f0 f1 … fn` with an
explicit choice of formatting: `lead` after the colon, one separator before
each subsequent filename, and trailing formatting. -/
def renderRule (target : Str) (lead : List SepTok) (f0 : Str)
    (rest : List (List SepTok × Str)) (trail : List SepTok) : Str :=
  target ++ ([':'] ++ (sepChars lead ++ (f0 ++
    (chunksStr rest ++ sepChars trail))))

/-- A character with no special meaning to the make-rule grammar. -/
def plainChar (c : Char) : Prop :=
  c ≠ ' ' ∧ c ≠ ':' ∧ c ≠ '\\' ∧ c ≠ '\n'

/-- A well-formed filename: nonempty and made of plain characters. -/
def goodFile (f : Str) : Prop := f ≠ [] ∧ ∀ c ∈ f, plainChar c

theorem depFold_target {target : Str} {cur : Str} {acc : List Str}
    (h : ∀ c ∈ target, plainChar c) :
    target.foldl (depStep false) ⟨false, false, cur, acc⟩ =
      ⟨false, false, cur, acc⟩ := by
  induction target with
  | nil => rfl
  | cons c cs ih =>
    obtain ⟨h1, h2, h3, h4⟩ := h c (List.mem_cons_self _ _)
    have hcs : ∀ x ∈ cs, plainChar x :=
      fun x hx => h x (List.mem_cons_of_mem _ hx)
    rw [List.foldl_cons]
    have hstep : depStep false ⟨false, false, cur, acc⟩ c =
        ⟨false, false, cur, acc⟩ := by
      simp [depStep, h1, h2, h3, h4]
    rw [hstep]
    exact ih hcs

theorem depFold_sep {s : List SepTok} {cur : Str} {acc : List Str} :
    (sepChars s).foldl (depStep false) ⟨true, false, cur, acc⟩ =
      if SepTok.sp ∈ s then ⟨true, false, [], depFlush cur acc⟩
      else ⟨true, false, cur, acc⟩ := by
  induction s generalizing cur acc with
  | nil => simp [sepChars]
  | cons t ts ih =>
    rw [sepChars, List.foldl_append]
    cases t with
    | sp =>
      have hstep : (sepTokChars SepTok.sp).foldl (depStep false)
          ⟨true, false, cur, acc⟩ = ⟨true, false, [], depFlush cur acc⟩ := by
        simp [sepTokChars, depStep]
      rw [hstep, ih]
      by_cases hmem : SepTok.sp ∈ ts <;> simp [hmem, depFlush]
    | cont =>
      have hstep : (sepTokChars SepTok.cont).foldl (depStep false)
          ⟨true, false, cur, acc⟩ = ⟨true, false, cur, acc⟩ := by
        simp [sepTokChars, depStep]
      rw [hstep, ih]
      by_cases hmem : SepTok.sp ∈ ts <;> simp [hmem]

theorem depFold_file {f : Str} {cur : Str} {acc : List Str}
    (h : ∀ c ∈ f, plainChar c) :
    f.foldl (depStep false) ⟨true, false, cur, acc⟩ =
      ⟨true, false, cur ++ f, acc⟩ := by
  induction f generalizing cur with
  | nil => simp
  | cons c cs ih =>
    obtain ⟨h1, h2, h3, h4⟩ := h c (List.mem_cons_self _ _)
    have hcs : ∀ x ∈ cs, plainChar x :=
      fun x hx => h x (List.mem_cons_of_mem _ hx)
    rw [List.foldl_cons]
    have hstep : depStep false ⟨true, false, cur, acc⟩ c =
        ⟨true, false, cur ++ [c], acc⟩ := by
      simp [depStep, h1, h2, h3, h4]
    rw [hstep, ih hcs]
    simp

theorem depFold_chunks {rest : List (List SepTok × Str)} {f : Str}
    {acc : List Str}
    (hgood : ∀ p ∈ rest, goodFile p.2 ∧ SepTok.sp ∈ p.1)
    (hf : f ≠ []) :
    ∃ g accOut, g ≠ [] ∧
      (chunksStr rest).foldl (depStep false) ⟨true, false, f, acc⟩ =
        ⟨true, false, g, accOut⟩ ∧
      depFlush g accOut =
        (rest.map Prod.snd).foldl (fun s x => setInsert x s)
          (setInsert f acc) := by
  induction rest generalizing f acc with
  | nil =>
    exact ⟨f, acc, hf, rfl, by simp [depFlush, hf]⟩
  | cons p ps ih =>
    obtain ⟨⟨hp2ne, hp2plain⟩, hp1sp⟩ := hgood p (List.mem_cons_self _ _)
    have hps : ∀ q ∈ ps, goodFile q.2 ∧ SepTok.sp ∈ q.1 :=
      fun q hq => hgood q (List.mem_cons_of_mem _ hq)
    obtain ⟨g, accOut, hgne, hfold, hflush⟩ :=
      @ih (p.2) (setInsert f acc) hps hp2ne
    refine ⟨g, accOut, hgne, ?_, ?_⟩
    · rw [chunksStr, List.foldl_append, List.foldl_append, depFold_sep,
        if_pos hp1sp]
      have h1 : depFlush f acc = setInsert f acc := by simp [depFlush, hf]
      rw [h1, depFold_file hp2plain, List.nil_append]
      exact hfold
    · rw [hflush]
      simp

/-- C4.  For a well-formed single GNU Make rule, the dependency set computed
by `dependencies_from_make_rules` (non-Sun format) does not depend on the
formatting of the rule body: for every choice of whitespace runs between
filenames (each possibly carrying backslash-newline continuations, and
containing at least one space when it separates two filenames) and for
arbitrary leading and trailing formatting, the parsed set is exactly the
set of right-hand-side filenames, so any two such reformattings of the same
rule parse to the same dependency set. -/
theorem make_rules_reformat_invariant
    (target f0 : Str) (lead trail : List SepTok)
    (rest : List (List SepTok × Str))
    (htarget : ∀ c ∈ target, plainChar c)
    (hf0 : goodFile f0)
    (hrest : ∀ p ∈ rest, goodFile p.2 ∧ SepTok.sp ∈ p.1) :
    dependencies_from_make_rules (renderRule target lead f0 rest trail)
      false = setOfList (f0 :: rest.map Prod.snd) := by
  obtain ⟨hf0ne, hf0plain⟩ := hf0
  rw [dependencies_from_make_rules, depRun, renderRule]
  rw [List.foldl_append, List.foldl_append, List.foldl_append,
    List.foldl_append, List.foldl_append]
  rw [depFold_target htarget]
  have hcolon : List.foldl (depStep false) ⟨false, false, [], []⟩ [':'] =
      (⟨true, false, [], []⟩ : DepState) := by decide
  rw [hcolon, depFold_sep]
  have hlead : (if SepTok.sp ∈ lead
      then (⟨true, false, [], depFlush [] []⟩ : DepState)
      else ⟨true, false, [], []⟩) = ⟨true, false, [], []⟩ := by
    by_cases h : SepTok.sp ∈ lead <;> simp [h, depFlush]
  rw [hlead, depFold_file hf0plain, List.nil_append]
  obtain ⟨g, accOut, hgne, hfold, hflush⟩ :=
    @depFold_chunks rest f0 [] hrest hf0ne
  rw [hfold, depFold_sep]
  have hgoal : (rest.map Prod.snd).foldl (fun s x => setInsert x s)
      (setInsert f0 []) = setOfList (f0 :: rest.map Prod.snd) := by
    simp [setOfList]
  by_cases htr : SepTok.sp ∈ trail
  · rw [if_pos htr]
    show depFlush [] (depFlush g accOut) = _
    rw [show depFlush [] (depFlush g accOut) = depFlush g accOut by
      simp [depFlush]]
    rw [hflush, hgoal]
  · rw [if_neg htr]
    show depFlush g accOut = _
    rw [hflush, hgoal]

/-! ## Path utilities (`fileutils.cpp`)

`buildboxcommon::FileUtils::normalizePath` and
`buildboxcommon::FileUtils::makePathRelative` belong to the external
`buildbox-common` library and are not part of this repository's sources.
`normalizePath` is modelled from the spec; `makePathRelative` is taken as an
arbitrary function parameter (the claims proved here never reach it). -/

/-- Splitting a path into its slash-separated pieces. -/
def splitSegs : Str → List Str
  | [] => [[]]
  | c :: cs =>
    if c = '/' then [] :: splitSegs cs
    else
      match splitSegs cs with
      | [] => [[c]]
      | s :: ss => (c :: s) :: ss

/-- One segment step of lexical path normalization: `..` pops the previous
real segment (except past leading `..` segments of a relative path, which
are kept, and at the root of an absolute path, where it is dropped), `.`
and empty segments are dropped, anything else is appended. -/
def normStep (global : Bool) (acc : List Str) (seg : Str) : List Str :=
  if seg = str ".." ∧ acc ≠ [] ∧ acc.getLast? ≠ some (str "..") then
    acc.dropLast
  else if global ∧ seg = str ".." ∧ acc = [] then acc
  else if seg ≠ str "." ∧ seg ≠ [] then acc ++ [seg]
  else acc

/-- Joining segments with `/`. -/
def joinSegs : List Str → Str
  | [] => []
  | [s] => s
  | s :: ss => s ++ '/' :: joinSegs ss

/-- The normalized segment list of a path. -/
def normSegsOf (p : Str) : List Str :=
  (splitSegs p).foldl (normStep (p.head? == some '/')) []

/-- Modelled from the spec: `buildboxcommon::FileUtils::normalizePath` is
not part of this repository's sources; the spec (§4.1) describes it as a
purely lexical collapse of `.`, `..` and double-slash segments.  An
absolute path keeps its leading slash; a relative path keeps leading `..`
segments; a path with no remaining segments becomes `/` (absolute) or `.`
(relative). -/
def normalizePath (p : Str) : Str :=
  if normSegsOf p = [] then
    (if p.head? == some '/' then str "/" else str ".")
  else
    (if p.head? == some '/' then ['/'] else []) ++ joinSegs (normSegsOf p)

/-- Global configuration read by the path utilities: the
`RECC_PREFIX_REPLACEMENT` list, `RECC_PROJECT_ROOT` and
`RECC_NO_PATH_REWRITE`. -/
structure PathConfig where
  prefixReplacement : List (Str × Str)
  projectRoot : Str
  noPathRewrite : Bool

/-- Model of `FileUtils::hasPathPrefix`: an empty candidate never matches;
otherwise the candidate matches if it equals the path or, extended with a
terminating slash if needed, is an initial segment of the path. -/
def hasPathPfx (path pfx : Str) : Bool :=
  if pfx = [] then false
  else if path = pfx then true
  else
    let tmp := if pfx.getLast? ≠ some '/' then pfx ++ ['/'] else pfx
    path.take tmp.length = tmp

/-- Model of `FileUtils::hasPathPrefixes`. -/
def hasPathPfxs (path : Str) (pfxs : List Str) : Bool :=
  pfxs.any (fun pfx => hasPathPfx path pfx)

/-- Model of `FileUtils::resolvePathFromPrefixMap`: the first matching
entry of `RECC_PREFIX_REPLACEMENT` has its prefix replaced and the result
normalized; a path matching no entry passes through unchanged. -/
def resolvePathFromPrefixMap (cfg : PathConfig) (path : Str) : Str :=
  match cfg.prefixReplacement.find? (fun pr => hasPathPfx path pr.1) with
  | some pr => normalizePath (pr.2 ++ '/' :: path.drop pr.1.length)
  | none => path

/-- Model of `FileUtils::rewritePathToRelative`; `mkRel` stands for the
external `buildboxcommon::FileUtils::makePathRelative`. -/
def rewritePathToRelative (cfg : PathConfig) (mkRel : Str → Str → Str)
    (path workingDirectory : Str) : Str :=
  if ¬cfg.noPathRewrite ∧ hasPathPfx path cfg.projectRoot then
    mkRel path workingDirectory
  else path

/-- Model of `FileUtils::modifyPathForRemote` (three-argument form; the
default call sites pass `normalizePath = true`). -/
def modifyPathForRemote (cfg : PathConfig) (mkRel : Str → Str → Str)
    (path workingDirectory : Str) (normalize : Bool) : Str :=
  let replaced := resolvePathFromPrefixMap cfg path
  let replaced := rewritePathToRelative cfg mkRel replaced workingDirectory
  if normalize ∧ ¬cfg.noPathRewrite then normalizePath replaced
  else replaced

theorem splitSegs_ne_nil (p : Str) : splitSegs p ≠ [] := by
  induction p with
  | nil => simp [splitSegs]
  | cons c cs ih =>
    by_cases hc : c = '/'
    · simp [splitSegs, hc]
    · simp only [splitSegs, hc, ite_false, if_neg]
      cases h : splitSegs cs with
      | nil => simp
      | cons s ss => simp

theorem splitSegs_no_slash {p : Str} : ∀ s ∈ splitSegs p, '/' ∉ s := by
  induction p with
  | nil =>
    intro s hs
    simp [splitSegs] at hs
    simp [hs]
  | cons c cs ih =>
    intro s hs
    by_cases hc : c = '/'
    · simp only [splitSegs, hc, ite_true, if_pos] at hs
      rcases List.mem_cons.mp hs with h | h
      · simp [h]
      · exact ih s h
    · simp only [splitSegs, hc, ite_false, if_neg] at hs
      cases hsp : splitSegs cs with
      | nil => exact absurd hsp (splitSegs_ne_nil cs)
      | cons t ts =>
        rw [hsp] at hs
        rcases List.mem_cons.mp hs with h | h
        · subst h
          intro hmem
          rcases List.mem_cons.mp hmem with h' | h'
          · exact hc h'.symm
          · exact ih t (hsp ▸ List.mem_cons_self _ _) h'
        · exact ih s (hsp ▸ List.mem_cons_of_mem _ h)

theorem splitSegs_no_slash_self {s : Str} (hs : '/' ∉ s) :
    splitSegs s = [s] := by
  induction s with
  | nil => rfl
  | cons c cs ih =>
    have hc : c ≠ '/' := fun h => hs (h ▸ List.mem_cons_self _ _)
    have hcs : '/' ∉ cs := fun h => hs (List.mem_cons_of_mem _ h)
    simp only [splitSegs, hc, ite_false, if_neg]
    rw [ih hcs]

theorem splitSegs_append_slash {s : Str} (hs : '/' ∉ s) (t : Str) :
    splitSegs (s ++ '/' :: t) = s :: splitSegs t := by
  induction s with
  | nil => simp [splitSegs]
  | cons c cs ih =>
    have hc : c ≠ '/' := fun h => hs (h ▸ List.mem_cons_self _ _)
    have hcs : '/' ∉ cs := fun h => hs (List.mem_cons_of_mem _ h)
    have hstep : splitSegs ((c :: cs) ++ '/' :: t) =
        match splitSegs (cs ++ '/' :: t) with
        | [] => [[c]]
        | s :: ss => (c :: s) :: ss := by
      simp [splitSegs, hc]
    rw [hstep, ih hcs]

/-- Round trip: splitting a slash-joined list of slash-free segments gives
the list back. -/
theorem splitSegs_joinSegs {segs : List Str} (hne : segs ≠ [])
    (hgood : ∀ s ∈ segs, '/' ∉ s) :
    splitSegs (joinSegs segs) = segs := by
  induction segs with
  | nil => exact absurd rfl hne
  | cons s ss ih =>
    cases ss with
    | nil =>
      rw [joinSegs]
      exact splitSegs_no_slash_self (hgood s (List.mem_cons_self _ _))
    | cons s2 ss2 =>
      have h1 := ih (fun h => List.noConfusion h)
        (fun x hx => hgood x (List.mem_cons_of_mem _ hx))
      have hj : joinSegs (s :: s2 :: ss2) = s ++ '/' :: joinSegs (s2 :: ss2) :=
        rfl
      rw [hj, splitSegs_append_slash (hgood s (List.mem_cons_self _ _)), h1]

theorem mem_of_getLast?_eq {α : Type} {l : List α} {x : α}
    (h : l.getLast? = some x) : x ∈ l := by
  obtain ⟨hne, hx⟩ := @List.mem_getLast?_eq_getLast _ l x h
  rw [hx]
  exact List.getLast_mem hne

theorem mem_of_mem_dropLast {α : Type} {l : List α} {x : α}
    (h : x ∈ l.dropLast) : x ∈ l :=
  (List.dropLast_sublist l).subset h

theorem replicate_getLast? {α : Type} (n : Nat) (a : α) :
    (List.replicate (n + 1) a).getLast? = some a := by
  rw [List.getLast?_eq_getLast_of_ne_nil (by simp)]
  congr 1
  exact List.eq_of_mem_replicate (List.getLast_mem _)

/-- A segment list in the image of normalization: every element nonempty,
not `.`, slash-free; absolute paths contain no `..`; in relative paths the
`..` segments form a leading block. -/
def NormOut (global : Bool) (segs : List Str) : Prop :=
  (∀ s ∈ segs, s ≠ [] ∧ s ≠ str "." ∧ '/' ∉ s) ∧
  (global = true → ∀ s ∈ segs, s ≠ str "..") ∧
  (global = false → ∃ k rest,
    segs = List.replicate k (str "..") ++ rest ∧ str ".." ∉ rest)

theorem normOut_nil (global : Bool) : NormOut global [] :=
  ⟨by simp, fun _ => by simp, fun _ => ⟨0, [], by simp, by simp⟩⟩

theorem normStep_normOut {global : Bool} {acc : List Str} {seg : Str}
    (hacc : NormOut global acc) (hseg : '/' ∉ seg) :
    NormOut global (normStep global acc seg) := by
  obtain ⟨helem, hg, hr⟩ := hacc
  rw [normStep]
  by_cases h1 : seg = str ".." ∧ acc ≠ [] ∧ acc.getLast? ≠ some (str "..")
  · rw [if_pos h1]
    refine ⟨fun s hs => helem s (mem_of_mem_dropLast hs),
      fun hgl s hs => hg hgl s (mem_of_mem_dropLast hs), fun hgl => ?_⟩
    obtain ⟨k, rest, hsegs, hrest⟩ := hr hgl
    cases rest with
    | nil =>
      exfalso
      rw [List.append_nil] at hsegs
      subst hsegs
      obtain ⟨-, hne, hlast⟩ := h1
      cases k with
      | zero => exact hne rfl
      | succ n => exact hlast (replicate_getLast? n _)
    | cons r rs =>
      subst hsegs
      refine ⟨k, (r :: rs).dropLast, ?_, ?_⟩
      · rw [List.dropLast_append_cons]
      · intro hmem
        exact hrest (mem_of_mem_dropLast hmem)
  · rw [if_neg h1]
    by_cases h2 : global = true ∧ seg = str ".." ∧ acc = []
    · rw [if_pos h2]
      exact ⟨helem, hg, hr⟩
    · rw [if_neg h2]
      by_cases h3 : seg ≠ str "." ∧ seg ≠ []
      · rw [if_pos h3]
        refine ⟨?_, ?_, ?_⟩
        · intro s hs
          rcases List.mem_append.mp hs with h | h
          · exact helem s h
          · rw [List.mem_singleton] at h
            subst h
            exact ⟨h3.2, h3.1, hseg⟩
        · intro hgl s hs
          rcases List.mem_append.mp hs with h | h
          · exact hg hgl s h
          · rw [List.mem_singleton] at h
            subst h
            intro hdd
            subst hdd
            by_cases haccnil : acc = []
            · exact h2 ⟨hgl, rfl, haccnil⟩
            · apply h1
              refine ⟨rfl, haccnil, fun hlast => ?_⟩
              exact hg hgl _ (mem_of_getLast?_eq hlast) rfl
        · intro hgl
          obtain ⟨k, rest, hsegs, hrest⟩ := hr hgl
          by_cases hdd : seg = str ".."
          · subst hdd
            have hrestnil : rest = [] := by
              by_contra hrne
              apply h1
              refine ⟨rfl, ?_, ?_⟩
              · subst hsegs
                intro hx
                rw [List.append_eq_nil] at hx
                exact hrne hx.2
              · subst hsegs
                rw [List.getLast?_append_of_ne_nil _ hrne]
                intro hlast
                exact hrest (mem_of_getLast?_eq hlast)
            subst hrestnil
            rw [List.append_nil] at hsegs
            subst hsegs
            refine ⟨k + 1, [], ?_, by simp⟩
            rw [List.replicate_succ' k, List.append_nil]
          · subst hsegs
            refine ⟨k, rest ++ [seg], by rw [List.append_assoc], ?_⟩
            intro hmem
            rcases List.mem_append.mp hmem with h | h
            · exact hrest h
            · rw [List.mem_singleton] at h
              exact hdd h.symm
      · rw [if_neg h3]
        exact ⟨helem, hg, hr⟩

theorem normFold_dotdot_free {global : Bool} {l : List Str}
    (h : ∀ s ∈ l, s ≠ [] ∧ s ≠ str "." ∧ s ≠ str "..") (acc : List Str) :
    l.foldl (normStep global) acc = acc ++ l := by
  induction l generalizing acc with
  | nil => simp
  | cons s ss ih =>
    obtain ⟨h1, h2, h3⟩ := h s (List.mem_cons_self _ _)
    have hss : ∀ x ∈ ss, x ≠ [] ∧ x ≠ str "." ∧ x ≠ str ".." :=
      fun x hx => h x (List.mem_cons_of_mem _ hx)
    rw [List.foldl_cons]
    have hstep : normStep global acc s = acc ++ [s] := by
      rw [normStep, if_neg (by intro hx; exact h3 hx.1),
        if_neg (by intro hx; exact h3 hx.2.1), if_pos ⟨h2, h1⟩]
    rw [hstep, ih hss]
    simp

/-- A `NormOut` segment list is a fixed point of the normalization fold. -/
theorem normFold_fixed {global : Bool} {segs : List Str}
    (h : NormOut global segs) :
    segs.foldl (normStep global) [] = segs := by
  obtain ⟨helem, hg, hr⟩ := h
  cases global with
  | true =>
    have hdd : ∀ s ∈ segs, s ≠ [] ∧ s ≠ str "." ∧ s ≠ str ".." :=
      fun s hs => ⟨(helem s hs).1, (helem s hs).2.1, hg rfl s hs⟩
    rw [normFold_dotdot_free hdd, List.nil_append]
  | false =>
    obtain ⟨k, rest, hsegs, hrest⟩ := hr rfl
    subst hsegs
    rw [List.foldl_append]
    have hmain : ∀ (j i : Nat), (List.replicate j (str "..")).foldl
        (normStep false) (List.replicate i (str "..")) =
        List.replicate (i + j) (str "..") := by
      intro j
      induction j with
      | zero => intro i; simp
      | succ n ih =>
        intro i
        rw [List.replicate_succ, List.foldl_cons]
        have hstep : normStep false (List.replicate i (str "..")) (str "..") =
            List.replicate (i + 1) (str "..") := by
          rw [normStep]
          cases i with
          | zero =>
            rw [if_neg (by simp), if_neg (by simp), if_pos (by decide)]
            rfl
          | succ m =>
            rw [if_neg ?hlast, if_neg (by simp), if_pos (by decide)]
            case hlast =>
              intro hx
              exact hx.2.2 (replicate_getLast? m _)
            rw [List.replicate_succ' (m + 1)]
        rw [hstep]
        rw [ih (i + 1)]
        congr 1
        omega
    have h0 : (List.replicate k (str "..")).foldl (normStep false) [] =
        List.replicate k (str "..") := by
      have := hmain k 0
      simpa using this
    have hrestgood : ∀ s ∈ rest, s ≠ [] ∧ s ≠ str "." ∧ s ≠ str ".." := by
      intro s hs
      have hin : s ∈ List.replicate k (str "..") ++ rest :=
        List.mem_append_right _ hs
      exact ⟨(helem s hin).1, (helem s hin).2.1, fun hx => hrest (hx ▸ hs)⟩
    rw [h0, normFold_dotdot_free hrestgood]

theorem normOut_fold {global : Bool} {l : List Str}
    (hl : ∀ s ∈ l, '/' ∉ s) {acc : List Str} (hacc : NormOut global acc) :
    NormOut global (l.foldl (normStep global) acc) := by
  induction l generalizing acc with
  | nil => exact hacc
  | cons s ss ih =>
    rw [List.foldl_cons]
    exact ih (fun x hx => hl x (List.mem_cons_of_mem _ hx))
      (normStep_normOut hacc (hl s (List.mem_cons_self _ _)))

theorem normOut_normSegsOf (p : Str) :
    NormOut (p.head? == some '/') (normSegsOf p) :=
  normOut_fold (@splitSegs_no_slash p) (normOut_nil _)

theorem joinSegs_head_not_slash {s : Str} {ss : List Str}
    (hne : s ≠ []) (hs : '/' ∉ s) :
    ((joinSegs (s :: ss)).head? == some '/') = false := by
  cases s with
  | nil => exact absurd rfl hne
  | cons c cs =>
    have hc : c ≠ '/' := fun h => hs (h ▸ List.mem_cons_self _ _)
    cases ss with
    | nil => simp [joinSegs, hc]
    | cons s2 ss2 => simp [joinSegs, hc]

/-- Lexical path normalization is idempotent. -/
theorem normalizePath_idem (p : Str) :
    normalizePath (normalizePath p) = normalizePath p := by
  have hout := normOut_normSegsOf p
  by_cases hnil : normSegsOf p = []
  · by_cases hgl : (p.head? == some '/') = true
    · have h1 : normalizePath p = str "/" := by
        rw [normalizePath, if_pos hnil, if_pos hgl]
      rw [h1]
      decide
    · have h1 : normalizePath p = str "." := by
        rw [normalizePath, if_pos hnil,
          if_neg (by simp at hgl; simp [hgl])]
      rw [h1]
      decide
  · obtain ⟨helem, hg, hr⟩ := hout
    have hsegsgood : ∀ s ∈ normSegsOf p, '/' ∉ s :=
      fun s hs => (helem s hs).2.2
    by_cases hgl : (p.head? == some '/') = true
    · have h1 : normalizePath p = '/' :: joinSegs (normSegsOf p) := by
        rw [normalizePath, if_neg hnil, if_pos hgl]
        rfl
      rw [h1]
      have hhead : (('/' :: joinSegs (normSegsOf p)).head? == some '/') =
          true := by simp
      have hsplit : splitSegs ('/' :: joinSegs (normSegsOf p)) =
          [] :: normSegsOf p := by
        rw [show splitSegs ('/' :: joinSegs (normSegsOf p)) =
            [] :: splitSegs (joinSegs (normSegsOf p)) by simp [splitSegs]]
        rw [splitSegs_joinSegs hnil hsegsgood]
      have hsegs2 : normSegsOf ('/' :: joinSegs (normSegsOf p)) =
          normSegsOf p := by
        rw [normSegsOf, hhead, hsplit, List.foldl_cons]
        rw [show normStep true [] [] = [] by decide]
        have hfixed : NormOut true (normSegsOf p) :=
          ⟨helem, fun _ => hg hgl, fun hx => Bool.noConfusion hx⟩
        exact normFold_fixed hfixed
      rw [normalizePath, hsegs2, if_neg hnil, hhead, if_pos rfl]
      rfl
    · have hglf : (p.head? == some '/') = false := by
        cases hx : (p.head? == some '/') with
        | true => exact absurd hx hgl
        | false => rfl
      have h1 : normalizePath p = joinSegs (normSegsOf p) := by
        rw [normalizePath, if_neg hnil, hglf]
        rfl
      rw [h1]
      cases hsegsc : normSegsOf p with
      | nil => exact absurd hsegsc hnil
      | cons s ss =>
        have hsne : s ≠ [] := (helem s (hsegsc ▸ List.mem_cons_self _ _)).1
        have hsnos : '/' ∉ s :=
          (helem s (hsegsc ▸ List.mem_cons_self _ _)).2.2
        have hhead : ((joinSegs (s :: ss)).head? == some '/') = false :=
          joinSegs_head_not_slash hsne hsnos
        have hsegs2 : normSegsOf (joinSegs (s :: ss)) = s :: ss := by
          rw [normSegsOf, hhead]
          rw [splitSegs_joinSegs (List.cons_ne_nil _ _)
            (hsegsc ▸ hsegsgood)]
          have hfixed : NormOut false (s :: ss) := by
            refine ⟨hsegsc ▸ helem, fun hx => Bool.noConfusion hx, fun _ => ?_⟩
            obtain ⟨k, rest, hsegs, hrest⟩ := hr hglf
            exact ⟨k, rest, hsegsc ▸ hsegs, hrest⟩
          exact normFold_fixed hfixed
        rw [normalizePath, hsegs2, if_neg (List.cons_ne_nil _ _), hhead]
        rfl

/-- C6.  With an empty `RECC_PROJECT_ROOT`, an empty prefix-replacement map
and path rewriting enabled, `modifyPathForRemote` is idempotent for every
path, working directory and relativization function: under those settings
an empty prefix never matches in `hasPathPrefix`, so the function reduces
to pure lexical normalization, which is idempotent. -/
theorem modifyPathForRemote_idem
    (cfg : PathConfig) (mkRel : Str → Str → Str) (path cwd : Str)
    (hroot : cfg.projectRoot = [])
    (hmap : cfg.prefixReplacement = [])
    (hrw : cfg.noPathRewrite = false) :
    modifyPathForRemote cfg mkRel
      (modifyPathForRemote cfg mkRel path cwd true) cwd true =
    modifyPathForRemote cfg mkRel path cwd true := by
  have hreduce : ∀ q, modifyPathForRemote cfg mkRel q cwd true =
      normalizePath q := by
    intro q
    have h1 : resolvePathFromPrefixMap cfg q = q := by
      rw [resolvePathFromPrefixMap, hmap]
      rfl
    have h2 : rewritePathToRelative cfg mkRel q cwd = q := by
      rw [rewritePathToRelative, if_neg]
      intro hx
      rw [hroot] at hx
      simp [hasPathPfx] at hx
    rw [modifyPathForRemote]
    simp only [h1, h2, hrw]
    rfl
  rw [hreduce path, hreduce (normalizePath path), normalizePath_idem]

/-- Closed instance of `modifyPathForRemote_idem` at a concrete path. -/
theorem modifyPathForRemote_idem_witness :
    modifyPathForRemote ⟨[], [], false⟩ (fun p _ => p)
      (modifyPathForRemote ⟨[], [], false⟩ (fun p _ => p)
        (str "a/./b/../c") (str "/w") true) (str "/w") true =
    modifyPathForRemote ⟨[], [], false⟩ (fun p _ => p)
      (str "a/./b/../c") (str "/w") true :=
  modifyPathForRemote_idem ⟨[], [], false⟩ (fun p _ => p)
    (str "a/./b/../c") (str "/w") rfl rfl rfl

/-! ## Last path segments (`fileutils.cpp`, `FileUtils::lastNSegments`) -/

/-- The scan loop of `lastNSegments`: `i` is the offset of `substringStart`
from the start of the path, `len` the running substring length and
`slashes` the number of slashes seen.  Position `i - 1` is inspected while
`i` counts down to `0`; on the `n`-th slash the substring starting behind
it is returned, and at the left end a slash-free path is returned whole
when `n = 1`. -/
def lastNSegmentsGo (path : Str) (n : Nat) : Nat → Nat → Nat →
    Except String Str
  | 0, _, slashes =>
    if slashes = 0 ∧ n = 1 then .ok path
    else .error "Not enough segments in path"
  | i + 1, len, slashes =>
    if path.getD i ' ' = '/' then
      if slashes + 1 = n then .ok ((path.drop (i + 1)).take len)
      else lastNSegmentsGo path n i (len + 1) (slashes + 1)
    else lastNSegmentsGo path n i (len + 1) slashes

/-- Model of `FileUtils::lastNSegments`.  For `n = 0` the code returns the
empty string before touching the path; for an empty path the C++ code reads
`path_p[pathLength - 1]`, an out-of-bounds access (undefined behaviour),
modelled here as an error. -/
def lastNSegments (path : Str) (n : Nat) : Except String Str :=
  if n = 0 then .ok []
  else if path = [] then .error "empty path: out-of-bounds read"
  else lastNSegmentsGo path n (path.length - 1)
    (if path.getLast? = some '/' then 0 else 1) 0

/-- Abstract view of the scan: either the resulting suffix, or the number
of slashes counted upon reaching the left end. -/
def scanPart (path : Str) (n : Nat) : Nat → Nat → Str ⊕ Nat
  | 0, cnt => .inr cnt
  | i + 1, cnt =>
    if path.getD i ' ' = '/' then
      if cnt + 1 = n then .inl (path.drop (i + 1))
      else scanPart path n i (cnt + 1)
    else scanPart path n i cnt

/-- Interpreting a finished scan as the function result. -/
def scanResult (path : Str) (n : Nat) : Str ⊕ Nat → Except String Str
  | .inl r => .ok r
  | .inr c =>
    if c = 0 ∧ n = 1 then .ok path
    else .error "Not enough segments in path"

/-- Effect of prepending one character on a finished sub-scan. -/
def shiftBoundary (ch : Char) (cs : Str) (n : Nat) :
    Str ⊕ Nat → Str ⊕ Nat
  | .inl r => .inl r
  | .inr c =>
    if ch = '/' then (if c + 1 = n then .inl cs else .inr (c + 1))
    else .inr c

theorem go_eq_scanPart (path : Str) (n : Nat) :
    ∀ (i len cnt : Nat), len = path.length - i → i ≤ path.length →
    lastNSegmentsGo path n i len cnt =
      scanResult path n (scanPart path n i cnt) := by
  intro i
  induction i with
  | zero =>
    intro len cnt hlen hle
    rfl
  | succ i ih =>
    intro len cnt hlen hle
    by_cases hc : path.getD i ' ' = '/'
    · by_cases hn : cnt + 1 = n
      · have htake : (path.drop (i + 1)).take len = path.drop (i + 1) := by
          have h1 : (path.drop (i + 1)).length = path.length - (i + 1) :=
            List.length_drop _ _
          rw [hlen, ← h1, List.take_length]
        simp only [lastNSegmentsGo, scanPart, scanResult, hc, hn, if_pos,
          ite_true, htake]
      · simp only [lastNSegmentsGo, scanPart, hc, hn, if_pos, ite_true,
          ite_false, if_neg]
        exact ih (len + 1) (cnt + 1) (by omega) (by omega)
    · simp only [lastNSegmentsGo, scanPart, hc, ite_false, if_neg]
      exact ih (len + 1) cnt (by omega) (by omega)

/-- Joining the split of any path reproduces the path. -/
theorem joinSegs_splitSegs (p : Str) : joinSegs (splitSegs p) = p := by
  induction p with
  | nil => rfl
  | cons c cs ih =>
    by_cases hc : c = '/'
    · subst hc
      have hsplit : splitSegs ('/' :: cs) = [] :: splitSegs cs := by
        simp [splitSegs]
      rw [hsplit]
      cases hsc : splitSegs cs with
      | nil => exact absurd hsc (splitSegs_ne_nil cs)
      | cons s ss =>
        rw [show joinSegs ([] :: s :: ss) = [] ++ '/' :: joinSegs (s :: ss)
          from rfl]
        rw [← hsc, ih]
        rfl
    · have hsplit : splitSegs (c :: cs) =
          match splitSegs cs with
          | [] => [[c]]
          | s :: ss => (c :: s) :: ss := by
        simp [splitSegs, hc]
      rw [hsplit]
      cases hsc : splitSegs cs with
      | nil => exact absurd hsc (splitSegs_ne_nil cs)
      | cons s ss =>
        cases ss with
        | nil =>
          rw [show joinSegs [c :: s] = c :: s from rfl]
          have := ih
          rw [hsc] at this
          rw [show joinSegs [s] = s from rfl] at this
          rw [this]
        | cons s2 ss2 =>
          rw [show joinSegs ((c :: s) :: s2 :: ss2) =
            (c :: s) ++ '/' :: joinSegs (s2 :: ss2) from rfl]
          have := ih
          rw [hsc] at this
          rw [show joinSegs (s :: s2 :: ss2) =
            s ++ '/' :: joinSegs (s2 :: ss2) from rfl] at this
          rw [List.cons_append, this]

theorem scanPart_shift (ch : Char) (cs : Str) (n : Nat) :
    ∀ (j cnt : Nat), scanPart (ch :: cs) n (j + 1) cnt =
      shiftBoundary ch cs n (scanPart cs n j cnt) := by
  intro j
  induction j with
  | zero =>
    intro cnt
    by_cases hch : ch = '/'
    · by_cases hn2 : cnt + 1 = n <;>
        simp [scanPart, shiftBoundary, hch, hn2]
    · simp [scanPart, shiftBoundary, hch]
  | succ j ih =>
    intro cnt
    rw [scanPart]
    rw [show (ch :: cs).getD (j + 1) ' ' = cs.getD j ' ' from rfl]
    rw [show (ch :: cs).drop (j + 1 + 1) = cs.drop (j + 1) from rfl]
    by_cases hc : cs.getD j ' ' = '/'
    · by_cases hn2 : cnt + 1 = n
      · rw [if_pos hc, if_pos hn2]
        rw [scanPart, if_pos hc, if_pos hn2]
        rfl
      · rw [if_pos hc, if_neg hn2, ih (cnt + 1)]
        rw [scanPart, if_pos hc, if_neg hn2]
    · rw [if_neg hc, ih cnt]
      rw [scanPart, if_neg hc]

/-- Full characterization of the scan on paths without a trailing slash:
either the `n`-th slash from the right exists and the suffix behind it is
returned, or the scan reaches the left end having seen one slash per piece
boundary. -/
theorem scanPart_full (path : Str) (n : Nat) (hne : path ≠ [])
    (hn : 1 ≤ n) (htrail : path.getLast? ≠ some '/') :
    scanPart path n (path.length - 1) 0 =
      (if n < (splitSegs path).length
       then .inl (joinSegs ((splitSegs path).drop ((splitSegs path).length - n)))
       else .inr ((splitSegs path).length - 1)) := by
  induction path with
  | nil => exact absurd rfl hne
  | cons ch cs ih =>
    cases hcs : cs with
    | nil =>
      subst hcs
      have hch : ch ≠ '/' := by
        intro hx
        exact htrail (by rw [hx]; rfl)
      have hsplit : splitSegs [ch] = [[ch]] := by
        simp [splitSegs, hch]
      rw [hsplit]
      rw [show ([ch] : Str).length - 1 = 0 from rfl]
      rw [show scanPart [ch] n 0 0 = .inr 0 from rfl]
      rw [if_neg (by simp; omega)]
      simp
    | cons c2 cs2 =>
      rw [← hcs]
      have hcsne : cs ≠ [] := by rw [hcs]; exact List.cons_ne_nil _ _
      have hcstrail : cs.getLast? ≠ some '/' := by
        rw [hcs]
        rw [hcs] at htrail
        rw [List.getLast?_cons_cons] at htrail
        exact htrail
      rw [hcs] at hcstrail
      rw [← hcs] at hcstrail
      have hlen : (ch :: cs).length - 1 = (cs.length - 1) + 1 := by
        rw [hcs]
        simp
      rw [hlen, scanPart_shift, ih hcsne hcstrail]
      cases hsc : splitSegs cs with
      | nil => exact absurd hsc (splitSegs_ne_nil cs)
      | cons s ss =>
        by_cases hch : ch = '/'
        · have hsplit : splitSegs (ch :: cs) = [] :: splitSegs cs := by
            simp [splitSegs, hch]
          rw [hsplit, hsc]
          by_cases hlt : n < (s :: ss).length
          · rw [if_pos hlt]
            rw [show shiftBoundary ch cs n
              (Sum.inl (joinSegs ((s :: ss).drop ((s :: ss).length - n)))) =
              Sum.inl (joinSegs ((s :: ss).drop ((s :: ss).length - n)))
              from rfl]
            rw [if_pos (by simp only [List.length_cons] at hlt ⊢; omega)]
            rw [show ([] :: s :: ss).length - n = ((s :: ss).length - n) + 1
              by simp only [List.length_cons] at hlt ⊢; omega]
            rw [List.drop_succ_cons]
          · rw [if_neg hlt]
            rw [show shiftBoundary ch cs n (Sum.inr ((s :: ss).length - 1)) =
              (if ch = '/' then
                (if (s :: ss).length - 1 + 1 = n then Sum.inl cs
                 else Sum.inr ((s :: ss).length - 1 + 1))
               else Sum.inr ((s :: ss).length - 1)) from rfl]
            rw [if_pos hch]
            by_cases heq : (s :: ss).length - 1 + 1 = n
            · rw [if_pos heq]
              rw [if_pos (by simp at heq ⊢; omega)]
              rw [show ([] :: s :: ss).length - n = 1 by
                simp at heq ⊢; omega]
              rw [List.drop_succ_cons, List.drop_zero, ← hsc,
                joinSegs_splitSegs]
            · rw [if_neg heq]
              rw [if_neg (by
                simp only [List.length_cons] at hlt heq ⊢; omega)]
              congr 1
        · have hsplit : splitSegs (ch :: cs) = (ch :: s) :: ss := by
            simp [splitSegs, hch, hsc]
          rw [hsplit]
          by_cases hlt : n < (s :: ss).length
          · rw [if_pos hlt]
            rw [show shiftBoundary ch cs n
              (Sum.inl (joinSegs ((s :: ss).drop ((s :: ss).length - n)))) =
              Sum.inl (joinSegs ((s :: ss).drop ((s :: ss).length - n)))
              from rfl]
            rw [if_pos (by simp at hlt ⊢; omega)]
            have hlt2 : n ≤ ss.length := by simp at hlt; omega
            rw [show ((ch :: s) :: ss).length - n = (ss.length - n) + 1 by
              simp; omega]
            rw [show ((s :: ss) : List Str).length - n = (ss.length - n) + 1
              by simp; omega]
            rw [List.drop_succ_cons, List.drop_succ_cons]
          · rw [if_neg hlt]
            rw [show shiftBoundary ch cs n (Sum.inr ((s :: ss).length - 1)) =
              (if ch = '/' then
                (if (s :: ss).length - 1 + 1 = n then Sum.inl cs
                 else Sum.inr ((s :: ss).length - 1 + 1))
               else Sum.inr ((s :: ss).length - 1)) from rfl]
            rw [if_neg hch]
            rw [if_neg (by simp only [List.length_cons] at hlt ⊢; omega)]
            congr 1

/-- Characterization of `lastNSegments` on nonempty paths without a
trailing slash: writing `pieces` for the slash-split of the path, the call
succeeds exactly when the `n`-th slash from the right exists (`n <
pieces.length`) or the path is slash-free and `n = 1`, and then returns the
last `n` pieces rejoined with `/`; otherwise it throws. -/
theorem lastNSegments_char (path : Str) (n : Nat) (hne : path ≠ [])
    (hn : 1 ≤ n) (htrail : path.getLast? ≠ some '/') :
    lastNSegments path n =
      (if n < (splitSegs path).length ∨
          (n = 1 ∧ (splitSegs path).length = 1)
       then Except.ok
         (joinSegs ((splitSegs path).drop ((splitSegs path).length - n)))
       else Except.error "Not enough segments in path") := by
  rw [lastNSegments, if_neg (by omega), if_neg hne, if_neg htrail]
  rw [go_eq_scanPart path n (path.length - 1) 1 0
    (by cases path with
        | nil => exact absurd rfl hne
        | cons a l => simp)
    (by omega)]
  rw [scanPart_full path n hne hn htrail]
  have hk : 1 ≤ (splitSegs path).length := by
    cases hsc : splitSegs path with
    | nil => exact absurd hsc (splitSegs_ne_nil path)
    | cons a l => simp
  by_cases hlt : n < (splitSegs path).length
  · rw [if_pos hlt]
    rw [show scanResult path n (Sum.inl (joinSegs
      ((splitSegs path).drop ((splitSegs path).length - n)))) =
      Except.ok (joinSegs
        ((splitSegs path).drop ((splitSegs path).length - n))) from rfl]
    rw [if_pos (Or.inl hlt)]
  · rw [if_neg hlt]
    rw [show scanResult path n (Sum.inr ((splitSegs path).length - 1)) =
      (if (splitSegs path).length - 1 = 0 ∧ n = 1 then Except.ok path
       else Except.error "Not enough segments in path") from rfl]
    by_cases hone : n = 1 ∧ (splitSegs path).length = 1
    · rw [if_pos (by omega : (splitSegs path).length - 1 = 0 ∧ n = 1)]
      rw [if_pos (Or.inr hone)]
      rw [show (splitSegs path).length - n = 0 by omega, List.drop_zero,
        joinSegs_splitSegs]
    · rw [if_neg (by omega : ¬((splitSegs path).length - 1 = 0 ∧ n = 1))]
      rw [if_neg (by tauto)]

/-- C9 counterexample.  The relative path `a/b` has exactly two segments,
so by the claim `lastNSegments "a/b" 2` should return `a/b`; the code
instead throws `Not enough segments in path` (the scan only succeeds when a
slash precedes the `n`-th-from-last segment). -/
theorem lastNSegments_counterexample :
    lastNSegments (str "a/b") 2 =
      Except.error "Not enough segments in path" ∧
    ((splitSegs (str "a/b")).filter (fun s => s ≠ [])).length = 2 ∧
    lastNSegments (str "a/b") 2 ≠ Except.ok (str "a/b") := by
  refine ⟨rfl, by decide, ?_⟩
  intro h
  rw [show lastNSegments (str "a/b") 2 =
    Except.error "Not enough segments in path" from rfl] at h
  exact Except.noConfusion h

/-- C9 amended.  For `n = 0`, `lastNSegments` returns the empty string.
For `n ≥ 1` and a nonempty path without trailing slash, writing `pieces`
for the slash-split of the path: the call returns the last `n` pieces
joined by `/` (no trailing slash) exactly when the path has more than `n`
pieces — equivalently, at least `n` slashes, which holds in particular for
absolute paths with `n` segments — or when `n = 1` and the path is
slash-free; in every other case, in particular whenever the path has fewer
than `n` segments and also when a relative path has exactly `n ≥ 2`
segments, it raises a hard error. -/
theorem lastNSegments_amended :
    (∀ path : Str, lastNSegments path 0 = Except.ok []) ∧
    (∀ (path : Str) (n : Nat), path ≠ [] → 1 ≤ n →
      path.getLast? ≠ some '/' →
      lastNSegments path n =
        (if n < (splitSegs path).length ∨
            (n = 1 ∧ (splitSegs path).length = 1)
         then Except.ok
           (joinSegs ((splitSegs path).drop ((splitSegs path).length - n)))
         else Except.error "Not enough segments in path")) := by
  exact ⟨fun path => rfl, lastNSegments_char⟩

/-- Concrete instantiation of `lastNSegments_amended`: the absolute path
`/a/b` has two segments (three slash-split pieces) and `n = 2` succeeds. -/
theorem lastNSegments_amended_witness :
    lastNSegments (str "/a/b") 2 =
      (if 2 < (splitSegs (str "/a/b")).length ∨
          (2 = 1 ∧ (splitSegs (str "/a/b")).length = 1)
       then Except.ok (joinSegs
         ((splitSegs (str "/a/b")).drop ((splitSegs (str "/a/b")).length - 2)))
       else Except.error "Not enough segments in path") :=
  lastNSegments_amended.2 (str "/a/b") 2 (by decide) (by decide) (by decide)

/-! ## The command parser (`parsedcommand.cpp`, `parsedcommandfactory.cpp`)

The parser touches the filesystem (directory and symlink tests) and the
compiler-name tables of `compilerdefaults.h`, which is not under the
repository sources; both are passed in as parameters of the model
(`FSOracle`, `Defaults`).  `std::list::front()` on an empty list is
undefined behaviour in C++ and is modelled as an `Except.error`. -/

/-- Filesystem oracle for the parser. -/
structure FSOracle where
  pathToCommand : Str → Str
  isSymlinkAt : Str → Bool
  resolveSymlinkAt : Str → Str
  isDirectory : Str → Bool
  isRegularFile : Str → Bool

/-- Compiler-name tables and default dependency commands from
`compilerdefaults.h` (not under `src/`; the invariants proved below hold
for every choice of these tables). -/
structure Defaults where
  gccNames : List Str
  gccPreprocessorNames : List Str
  sunNames : List Str
  aixNames : List Str
  cCompilers : List Str
  gccLanguages : List Str
  gccDefaultDeps : List Str
  sunDefaultDeps : List Str
  aixDefaultDeps : List Str
  aixTempFile : Str

/-- Ambient configuration of a parse: path-rewriting configuration, the
external `makePathRelative`, `RECC_DEPS_GLOBAL_PATHS`, the filesystem
oracle and the compiler tables. -/
structure ParseEnv where
  pathCfg : PathConfig
  mkRel : Str → Str → Str
  depsGlobalPaths : Bool
  fs : FSOracle
  dflt : Defaults

/-- Model of the `ParsedCommand` object (field names follow the class). -/
structure ParsedCommandSt where
  d_compilerCommand : Bool
  d_linkerCommand : Bool
  d_md_option_set : Bool
  d_qmakedep_option_set : Bool
  d_coverage_option_set : Bool
  d_split_dwarf_option_set : Bool
  d_isGcc : Bool
  d_isClang : Bool
  d_isSunStudio : Bool
  d_producesSunMakeRules : Bool
  d_containsUnsupportedOptions : Bool
  d_upload_all_include_dirs : Bool
  d_bstatic : Bool
  d_isAIX : Bool
  d_compiler : Str
  d_originalCommand : List Str
  d_defaultDepsCommand : List Str
  d_preProcessorOptions : List Str
  d_command : List Str
  d_dependenciesCommand : List Str
  d_inputFiles : List Str
  d_auxInputFiles : List Str
  d_libraryDirs : List Str
  d_rpathLinkDirs : List Str
  d_rpathDirs : List Str
  d_defaultLibraryDirs : List Str
  d_libraries : List Str
  d_staticLibraries : List Str
  d_commandProducts : List Str
  d_commandDepsProducts : List Str
  d_commandCoverageProducts : List Str
  d_includeDirs : List Str
  d_bstaticStack : List Bool
  deriving DecidableEq, Repr

/-- The default-constructed `ParsedCommand`. -/
def initSt : ParsedCommandSt :=
  ⟨false, false, false, false, false, false, false, false, false, false,
   false, false, false, false, [], [], [], [], [], [], [], [], [], [], [],
   [], [], [], [], [], [], [], []⟩

/-- The last maximal `c`-free suffix of a string: `substr` after the last
occurrence of `c`, the whole string if `c` does not occur (the
`rfind`/`substr` idiom). -/
def afterLastChar (c : Char) (s : Str) : Str :=
  (s.reverse.takeWhile (fun x => x ≠ c)).reverse

/-- Index of the first occurrence of a character (`std::string::find`). -/
def findCharIdx (c : Char) (s : Str) : Option Nat :=
  s.findIdx? (fun x => x = c)

/-- A version character as in `ParsedCommand::commandBasename`. -/
def isVersionChar (c : Char) : Bool := c.isDigit || c = '.' || c = '-'

/-- The recursion of `ParsedCommand::commandBasename`; `left` counts the
remaining symlink hops (40 at the entry, `ELOOP` when exhausted). -/
def commandBasenameGo (env : ParseEnv) : Nat → Str → Except String Str
  | left, path =>
    let basename := afterLastChar '/' path
    if basename ∈ env.dflt.cCompilers then
      let absolutePath := env.fs.pathToCommand path
      if absolutePath ≠ [] ∧ env.fs.isSymlinkAt absolutePath = true then
        match left with
        | 0 => .error "ELOOP: too many levels of symlinks"
        | left' + 1 =>
          commandBasenameGo env left' (env.fs.resolveSymlinkAt absolutePath)
      else .ok basename
    else
      let len := basename.length
      let len :=
        if len > 2 ∧ basename.drop (len - 2) = str "_r" then len - 2
        else if len > 3 ∧ (basename.drop (len - 3)).take 2 = str "_r" then
          len - 3
        else len
      .ok (((basename.take len).reverse.dropWhile isVersionChar).reverse)

/-- Model of `ParsedCommand::commandBasename`. -/
def commandBasename (env : ParseEnv) (path : Str) : Except String Str :=
  commandBasenameGo env 40 path

/-- Model of the `ParsedCommand` constructor. -/
def mkParsedCommand (env : ParseEnv) (command : List Str)
    (workingDirectory : Str) : Except String ParsedCommandSt :=
  match command with
  | [] => .ok initSt
  | compiler :: rest =>
    if compiler = [] then .ok initSt
    else
      match commandBasename env compiler with
      | .error e => .error e
      | .ok base =>
        let st := { initSt with d_compiler := base }
        let st :=
          if base ∈ env.dflt.gccNames then
            if base = str "clang" ∨ base = str "clang++" then
              { st with d_defaultDepsCommand := env.dflt.gccDefaultDeps,
                        d_isClang := true }
            else
              { st with d_defaultDepsCommand := env.dflt.gccDefaultDeps,
                        d_isGcc := true }
          else if base ∈ env.dflt.sunNames then
            { st with d_defaultDepsCommand := env.dflt.sunDefaultDeps,
                      d_producesSunMakeRules := true, d_isSunStudio := true }
          else if base ∈ env.dflt.aixNames then
            { st with d_defaultDepsCommand :=
                        env.dflt.aixDefaultDeps ++ [env.dflt.aixTempFile],
                      d_producesSunMakeRules := true, d_isAIX := true }
          else st
        let st :=
          if st.d_isClang = true ∧ env.depsGlobalPaths = true then
            { st with d_defaultDepsCommand :=
                        st.d_defaultDepsCommand ++ [str "-v"] }
          else st
        let replacedCompilerPath :=
          modifyPathForRemote env.pathCfg env.mkRel compiler workingDirectory
            false
        .ok { st with d_command := [replacedCompilerPath],
                      d_dependenciesCommand := [compiler],
                      d_originalCommand := rest }

/-- Model of `ParseRuleHelper::appendAndRemoveOption`. -/
def appendAndRemoveOption (env : ParseEnv) (st : ParsedCommandSt)
    (workingDirectory : Str) (isPath toDeps isOutput depsOutput : Bool) :
    Except String ParsedCommandSt :=
  match st.d_originalCommand with
  | [] => .error "std::list::front on empty list"
  | option :: rest =>
    if isPath then
      let replacedPath :=
        modifyPathForRemote env.pathCfg env.mkRel option workingDirectory true
      let localNorm := normalizePath option
      let st :=
        if env.fs.isDirectory localNorm then
          { st with d_includeDirs := setInsert replacedPath st.d_includeDirs }
        else st
      let st :=
        if toDeps then
          { st with d_dependenciesCommand :=
                      st.d_dependenciesCommand ++ [option] }
        else st
      let st := { st with d_command := st.d_command ++ [replacedPath] }
      let st :=
        if isOutput = true ∧ depsOutput = false then
          { st with d_commandProducts :=
                      setInsert replacedPath st.d_commandProducts }
        else if isOutput then
          { st with d_commandDepsProducts :=
                      setInsert replacedPath st.d_commandDepsProducts }
        else st
      .ok { st with d_originalCommand := rest }
    else
      let st := { st with d_command := st.d_command ++ [option] }
      let st :=
        if toDeps then
          { st with d_dependenciesCommand :=
                      st.d_dependenciesCommand ++ [option] }
        else st
      .ok { st with d_originalCommand := rest }

/-- Model of `ParseRuleHelper::parseGccOption`. -/
def parseGccOption (env : ParseEnv) (st : ParsedCommandSt)
    (workingDirectory : Str) (option : Str)
    (toDeps isOutput depsOutput : Bool) : Except String ParsedCommandSt :=
  match st.d_originalCommand with
  | [] => .error "std::list::front on empty list"
  | val :: rest =>
    if val = option then
      match appendAndRemoveOption env st workingDirectory false toDeps false
          false with
      | .error e => .error e
      | .ok st₁ =>
        appendAndRemoveOption env st₁ workingDirectory true toDeps isOutput
          depsOutput
    else
      let (modifiedOption, optionPath) :=
        match findCharIdx '=' val with
        | some i => (option ++ [ '='], val.drop (i + 1))
        | none => (option, val.drop option.length)
      let replacedPath :=
        modifyPathForRemote env.pathCfg env.mkRel optionPath workingDirectory
          true
      let localNorm := normalizePath optionPath
      let st :=
        if env.fs.isDirectory localNorm then
          { st with d_includeDirs := setInsert replacedPath st.d_includeDirs }
        else st
      let st :=
        { st with d_command := st.d_command ++ [modifiedOption ++ replacedPath] }
      let st :=
        if isOutput = true ∧ depsOutput = false then
          { st with d_commandProducts :=
                      setInsert replacedPath st.d_commandProducts }
        else if isOutput then
          { st with d_commandDepsProducts :=
                      setInsert replacedPath st.d_commandDepsProducts }
        else if toDeps then
          { st with d_dependenciesCommand :=
                      st.d_dependenciesCommand ++ [modifiedOption ++ optionPath] }
        else st
      .ok { st with d_originalCommand := rest }

/-- Model of `ParseRuleHelper::parseStageOptionList`. -/
def parseStageOptionList (option : Str) : List Str :=
  let fin := option.foldl
    (fun (acc : Bool × Str × List Str) character =>
      let (quoted, current, result) := acc
      if character = '\'' then (!quoted, current, result)
      else if character = ',' ∧ quoted = false then
        (quoted, [], result ++ [current])
      else (quoted, current ++ [character], result))
    (false, [], [])
  fin.2.2 ++ [fin.2.1]

/-- Model of `ParseRule::parseOptionIsUnsupported`. -/
def parseOptionIsUnsupported (st : ParsedCommandSt) :
    Except String ParsedCommandSt :=
  .ok { st with
    d_containsUnsupportedOptions := true
    d_dependenciesCommand := st.d_dependenciesCommand ++ st.d_originalCommand
    d_command := st.d_command ++ st.d_originalCommand
    d_originalCommand := [] }

/-- Model of `ParseRule::parseInterfersWithDepsOption`. -/
def parseInterfersWithDepsOption (st : ParsedCommandSt) (option : Str) :
    Except String ParsedCommandSt :=
  match st.d_originalCommand with
  | [] => .error "std::list::front on empty list"
  | tok :: rest =>
    let st :=
      if tok = str "-MMD" ∨ tok = str "-MD" ∨ tok = str "-xMMD" ∨
          tok = str "-xMD" then
        { st with d_md_option_set := true }
      else if st.d_isAIX = true ∧ (option = str "-M" ∨ option = str "-qmakedep")
          then
        { st with d_qmakedep_option_set := true }
      else if tok = str "-Wmissing-include-dirs" ∨
          tok = str "-Werror=missing-include-dirs" then
        { st with d_upload_all_include_dirs := true }
      else st
    .ok { st with d_command := st.d_command ++ [tok],
                  d_originalCommand := rest }

/-- Model of `ParseRule::parseIsCompileOption`. -/
def parseIsCompileOption (env : ParseEnv) (st : ParsedCommandSt)
    (workingDirectory : Str) : Except String ParsedCommandSt :=
  appendAndRemoveOption env { st with d_compilerCommand := true }
    workingDirectory false true false false

/-- Model of `ParseRule::parseIsPreprocessorArgOption`. -/
def parseIsPreprocessorArgOption (st : ParsedCommandSt) (option : Str) :
    Except String ParsedCommandSt :=
  match st.d_originalCommand with
  | [] => .error "std::list::front on empty list"
  | val :: rest =>
    if option = str "-Wp," then
      let optionList := val.drop option.length
      .ok { st with
        d_preProcessorOptions :=
          st.d_preProcessorOptions ++ parseStageOptionList optionList
        d_originalCommand := rest }
    else if option = str "-Xpreprocessor" then
      match rest with
      | [] => .error "std::list::front on empty list"
      | nxt :: rest' =>
        .ok { st with
          d_preProcessorOptions := st.d_preProcessorOptions ++ [nxt]
          d_originalCommand := rest' }
    else .ok { st with d_originalCommand := rest }

/-- Model of `ParseRule::parseIsMacro`. -/
def parseIsMacro (st : ParsedCommandSt) (option : Str) :
    Except String ParsedCommandSt :=
  match st.d_originalCommand with
  | [] => .error "std::list::front on empty list"
  | token :: rest =>
    let st := { st with d_command := st.d_command ++ [token],
                        d_dependenciesCommand :=
                          st.d_dependenciesCommand ++ [token] }
    if token = option then
      match rest with
      | [] => .error "std::list::front on empty list"
      | arg :: rest' =>
        .ok { st with d_command := st.d_command ++ [arg],
                      d_dependenciesCommand :=
                        st.d_dependenciesCommand ++ [arg],
                      d_originalCommand := rest' }
    else .ok { st with d_originalCommand := rest }

/-- Model of `ParseRule::parseOptionSetsGccLanguage`. -/
def parseOptionSetsGccLanguage (env : ParseEnv) (st : ParsedCommandSt)
    (workingDirectory : Str) (option : Str) : Except String ParsedCommandSt :=
  match st.d_originalCommand with
  | [] => .error "std::list::front on empty list"
  | originalCommandOption :: rest =>
    if originalCommandOption = option then
      match rest with
      | [] =>
        .ok { st with d_containsUnsupportedOptions := true,
                      d_originalCommand := [] }
      | language :: _ =>
        let st := { st with d_originalCommand :=
                              originalCommandOption :: rest }
        let st :=
          if language ∈ env.dflt.gccLanguages then st
          else { st with d_containsUnsupportedOptions := true }
        parseGccOption env st workingDirectory option true false false
    else
      let language := originalCommandOption.drop option.length
      let st := { st with d_originalCommand := originalCommandOption :: rest }
      let st :=
        if language ∈ env.dflt.gccLanguages then st
        else { st with d_containsUnsupportedOptions := true }
      parseGccOption env st workingDirectory option true false false

/-- Model of `ParseRule::parseOptionCoverageOutput`. -/
def parseOptionCoverageOutput (st : ParsedCommandSt) :
    Except String ParsedCommandSt :=
  match st.d_originalCommand with
  | [] => .error "std::list::front on empty list"
  | tok :: rest =>
    .ok { st with d_coverage_option_set := true,
                  d_command := st.d_command ++ [tok],
                  d_originalCommand := rest }

/-- Model of `ParseRule::parseOptionSplitDwarf`. -/
def parseOptionSplitDwarf (env : ParseEnv) (st : ParsedCommandSt)
    (workingDirectory : Str) : Except String ParsedCommandSt :=
  appendAndRemoveOption env { st with d_split_dwarf_option_set := true }
    workingDirectory false true false false

/-- Model of `ParseRule::parseOptionSolarisPhase`. -/
def parseOptionSolarisPhase (env : ParseEnv) (st : ParsedCommandSt)
    (workingDirectory : Str) : Except String ParsedCommandSt :=
  if st.d_originalCommand.length < 3 then parseOptionIsUnsupported st
  else
    match appendAndRemoveOption env st workingDirectory false true false
        false with
    | .error e => .error e
    | .ok st₁ =>
      match appendAndRemoveOption env st₁ workingDirectory false true false
          false with
      | .error e => .error e
      | .ok st₂ =>
        appendAndRemoveOption env st₂ workingDirectory false true false false

/-- Model of `ParseRule::parseOptionRedirectsCoverageOutput`. -/
def parseOptionRedirectsCoverageOutput (env : ParseEnv)
    (st : ParsedCommandSt) (workingDirectory : Str) :
    Except String ParsedCommandSt :=
  match st.d_originalCommand with
  | [] => .error "std::list::front on empty list"
  | tok :: rest =>
    let st := { st with d_originalCommand := rest }
    match findCharIdx '=' tok with
    | some i =>
      let optionPath := tok.drop (i + 1)
      let replacedPath :=
        modifyPathForRemote env.pathCfg env.mkRel optionPath workingDirectory
          true
      .ok { st with
        d_commandCoverageProducts :=
          setInsert replacedPath st.d_commandCoverageProducts
        d_command := st.d_command ++ [tok] }
    | none => .ok { st with d_containsUnsupportedOptions := true }

/-- Model of `ParseRule::parseOptionNative`. -/
def parseOptionNative (env : ParseEnv) (st : ParsedCommandSt)
    (workingDirectory : Str) : Except String ParsedCommandSt :=
  match st.d_originalCommand with
  | [] => .error "std::list::front on empty list"
  | tok :: _ =>
    match findCharIdx '=' tok with
    | some i =>
      if tok.drop (i + 1) = str "native" then parseOptionIsUnsupported st
      else appendAndRemoveOption env st workingDirectory false true false false
    | none =>
      appendAndRemoveOption env st workingDirectory false true false false

/-- Model of `ParseRule::parseOptionParam`. -/
def parseOptionParam (env : ParseEnv) (st : ParsedCommandSt)
    (workingDirectory : Str) (option : Str) : Except String ParsedCommandSt :=
  match st.d_originalCommand with
  | [] => .error "std::list::front on empty list"
  | val :: _ =>
    if val = option then
      if st.d_originalCommand.length < 2 then parseOptionIsUnsupported st
      else
        match appendAndRemoveOption env st workingDirectory false true false
            false with
        | .error e => .error e
        | .ok st₁ =>
          appendAndRemoveOption env st₁ workingDirectory false true false false
    else appendAndRemoveOption env st workingDirectory false true false false

/-- Model of `ParseRule::parseLdLibrary`. -/
def parseLdLibrary (env : ParseEnv) (st : ParsedCommandSt)
    (workingDirectory : Str) (option : Str) : Except String ParsedCommandSt :=
  match st.d_originalCommand with
  | [] => .error "std::list::front on empty list"
  | val :: _ =>
    if val = option then
      match appendAndRemoveOption env st workingDirectory false false false
          false with
      | .error e => .error e
      | .ok st₁ =>
        match st₁.d_originalCommand with
        | [] => .error "std::list::front on empty list"
        | library :: _ =>
          match appendAndRemoveOption env st₁ workingDirectory false false
              false false with
          | .error e => .error e
          | .ok st₂ =>
            if library = [] then parseOptionIsUnsupported st₂
            else if st₂.d_bstatic then
              .ok { st₂ with d_staticLibraries :=
                               setInsert library st₂.d_staticLibraries }
            else
              .ok { st₂ with d_libraries := setInsert library st₂.d_libraries }
    else
      let library :=
        match findCharIdx '=' val with
        | some i => val.drop (i + 1)
        | none => val.drop option.length
      match appendAndRemoveOption env st workingDirectory false false false
          false with
      | .error e => .error e
      | .ok st₂ =>
        if library = [] then parseOptionIsUnsupported st₂
        else if st₂.d_bstatic then
          .ok { st₂ with d_staticLibraries :=
                           setInsert library st₂.d_staticLibraries }
        else .ok { st₂ with d_libraries := setInsert library st₂.d_libraries }

/-- Which library-directory vector a `parseLdLibraryPath` option feeds. -/
def ldDirsKind (option : Str) : Nat :=
  if option = str "-rpath-link" ∨ option = str "--rpath-link" then 0
  else if option = str "-rpath" ∨ option = str "--rpath" ∨ option = str "-R"
    then 1
  else 2

/-- Appending to the library-directory vector selected by `ldDirsKind`. -/
def pushLdDir (kind : Nat) (token : Str) (st : ParsedCommandSt) :
    ParsedCommandSt :=
  if kind = 0 then { st with d_rpathLinkDirs := st.d_rpathLinkDirs ++ [token] }
  else if kind = 1 then { st with d_rpathDirs := st.d_rpathDirs ++ [token] }
  else { st with d_libraryDirs := st.d_libraryDirs ++ [token] }

/-- Splitting on `:` with `std::getline` semantics (a trailing delimiter
produces no empty final token). -/
def splitColon (s : Str) : List Str :=
  if s = [] then []
  else
    let pieces := (s.foldr
      (fun c (acc : List Str) =>
        match acc with
        | [] => if c = ':' then [[], []] else [[c]]
        | p :: ps => if c = ':' then [] :: p :: ps else (c :: p) :: ps)
      [[]])
    if s.getLast? = some ':' then pieces.dropLast else pieces

/-- The token loop at the end of `parseLdLibraryPath`. -/
def ldLibraryPathLoop (env : ParseEnv) (workingDirectory : Str)
    (option : Str) (kind : Nat) :
    List Str → ParsedCommandSt → Except String ParsedCommandSt
  | [], st => .ok st
  | token :: rest, st =>
    if env.fs.isDirectory token then
      let replacedPath :=
        modifyPathForRemote env.pathCfg env.mkRel token workingDirectory true
      let st := { st with d_command := st.d_command ++ [option, replacedPath] }
      ldLibraryPathLoop env workingDirectory option kind rest
        (pushLdDir kind token st)
    else if option = str "-R" ∧ env.fs.isRegularFile token = true then
      parseOptionIsUnsupported st
    else ldLibraryPathLoop env workingDirectory option kind rest st

/-- Model of `ParseRule::parseLdLibraryPath`. -/
def parseLdLibraryPath (env : ParseEnv) (st : ParsedCommandSt)
    (workingDirectory : Str) (option : Str) : Except String ParsedCommandSt :=
  match st.d_originalCommand with
  | [] => .error "std::list::front on empty list"
  | val :: rest =>
    let st := { st with d_originalCommand := rest }
    if val = option then
      match st.d_originalCommand with
      | [] => .error "std::list::front on empty list"
      | libraryPath :: rest' =>
        let st := { st with d_originalCommand := rest' }
        if libraryPath = [] then parseOptionIsUnsupported st
        else
          ldLibraryPathLoop env workingDirectory option (ldDirsKind option)
            (splitColon libraryPath) st
    else
      let libraryPath := val.drop option.length
      let libraryPath :=
        if libraryPath.take 1 = ['='] then libraryPath.drop 1
        else libraryPath
      if libraryPath = [] then parseOptionIsUnsupported st
      else
        ldLibraryPathLoop env workingDirectory option (ldDirsKind option)
          (splitColon libraryPath) st

/-- Model of `ParseRule::parseLdOptionDynamic`. -/
def parseLdOptionDynamic (env : ParseEnv) (st : ParsedCommandSt)
    (workingDirectory : Str) : Except String ParsedCommandSt :=
  appendAndRemoveOption env { st with d_bstatic := false } workingDirectory
    false true false false

/-- Model of `ParseRule::parseLdOptionStatic`. -/
def parseLdOptionStatic (env : ParseEnv) (st : ParsedCommandSt)
    (workingDirectory : Str) : Except String ParsedCommandSt :=
  appendAndRemoveOption env { st with d_bstatic := true } workingDirectory
    false true false false

/-- Model of `ParseRule::parseLdOptionState`. -/
def parseLdOptionState (env : ParseEnv) (st : ParsedCommandSt)
    (workingDirectory : Str) (option : Str) : Except String ParsedCommandSt :=
  if option = str "--push-state" then
    appendAndRemoveOption env
      { st with d_bstaticStack := st.d_bstaticStack ++ [st.d_bstatic] }
      workingDirectory false true false false
  else if option = str "--pop-state" ∧ st.d_bstaticStack ≠ [] then
    match st.d_bstaticStack.getLast? with
    | some b =>
      appendAndRemoveOption env
        { st with d_bstatic := b,
                  d_bstaticStack := st.d_bstaticStack.dropLast }
        workingDirectory false true false false
    | none => .error "unreachable: empty bstatic stack"
  else parseOptionIsUnsupported st

/-- Model of `ParseRule::parseLdOptionEmulation`. -/
def parseLdOptionEmulation (st : ParsedCommandSt) (option : Str) :
    Except String ParsedCommandSt :=
  match st.d_originalCommand with
  | [] => .error "std::list::front on empty list"
  | token :: rest =>
    let st := { st with d_command := st.d_command ++ [token],
                        d_dependenciesCommand :=
                          st.d_dependenciesCommand ++ [token] }
    if token = option then
      match rest with
      | [] => .error "std::list::front on empty list"
      | arg :: rest' =>
        .ok { st with d_command := st.d_command ++ [arg],
                      d_dependenciesCommand :=
                        st.d_dependenciesCommand ++ [arg],
                      d_originalCommand := rest' }
    else .ok { st with d_originalCommand := rest }

/-- Model of `ParseRule::parseOptionSimple`. -/
def parseOptionSimple (env : ParseEnv) (st : ParsedCommandSt)
    (workingDirectory : Str) : Except String ParsedCommandSt :=
  appendAndRemoveOption env st workingDirectory false true false false

/-- Dispatch of a rule tag to its handler. -/
def applyRule (env : ParseEnv) (r : Rule) (st : ParsedCommandSt)
    (workingDirectory : Str) (option : Str) : Except String ParsedCommandSt :=
  match r with
  | .simple => parseOptionSimple env st workingDirectory
  | .interfersWithDeps => parseInterfersWithDepsOption st option
  | .isInputPath => parseGccOption env st workingDirectory option true false false
  | .isEqualInputPath =>
    parseGccOption env st workingDirectory option true false false
  | .isCompile => parseIsCompileOption env st workingDirectory
  | .redirectsOutput =>
    parseGccOption env st workingDirectory option false true false
  | .redirectsDepsOutput =>
    parseGccOption env st workingDirectory option false true true
  | .depsRuleTarget =>
    parseGccOption env st workingDirectory option false false false
  | .isPreprocessorArg => parseIsPreprocessorArgOption st option
  | .isMacro => parseIsMacro st option
  | .setsGccLanguage => parseOptionSetsGccLanguage env st workingDirectory option
  | .isUnsupported => parseOptionIsUnsupported st
  | .coverageOutput => parseOptionCoverageOutput st
  | .redirectsCoverageOutput =>
    parseOptionRedirectsCoverageOutput env st workingDirectory
  | .splitDwarf => parseOptionSplitDwarf env st workingDirectory
  | .solarisPhase => parseOptionSolarisPhase env st workingDirectory
  | .native => parseOptionNative env st workingDirectory
  | .param => parseOptionParam env st workingDirectory option
  | .ldLibrary => parseLdLibrary env st workingDirectory option
  | .ldLibraryPath => parseLdLibraryPath env st workingDirectory option
  | .ldDynamic => parseLdOptionDynamic env st workingDirectory
  | .ldStatic => parseLdOptionStatic env st workingDirectory
  | .ldState => parseLdOptionState env st workingDirectory option
  | .ldEmulation => parseLdOptionEmulation st option

/-- Model of `ParsedCommandFactory::parseCommand`: the token loop.  The
loop terminates because every iteration shortens the token list; the model
makes this explicit with fuel, and any caller passing at least
`length + 1` fuel never hits the fuel error. -/
def parseLoop (env : ParseEnv) (rules : List RuleEntry)
    (workingDirectory : Str) : Nat → ParsedCommandSt →
    Except String ParsedCommandSt
  | 0, _ => .error "fuel exhausted"
  | fuel + 1, st =>
    match st.d_originalCommand with
    | [] => .ok st
    | currToken :: rest =>
      match matchCompilerOptions currToken rules with
      | (matchedKey, some r) =>
        match applyRule env r st workingDirectory matchedKey with
        | .error e => .error e
        | .ok st' => parseLoop env rules workingDirectory fuel st'
      | (_, none) =>
        if currToken = str "-" then
          parseLoop env rules workingDirectory fuel
            { st with d_containsUnsupportedOptions := true,
                      d_originalCommand := rest }
        else if currToken ≠ [] ∧ currToken.head? = some '@' then
          parseLoop env rules workingDirectory fuel
            { st with d_containsUnsupportedOptions := true,
                      d_originalCommand := rest }
        else if currToken ≠ [] ∧ (currToken.head? = some '-' ∨
            (st.d_isSunStudio = true ∧ currToken.head? = some '+')) then
          match appendAndRemoveOption env st workingDirectory false true false
              false with
          | .error e => .error e
          | .ok st' => parseLoop env rules workingDirectory fuel st'
        else
          let replacedPath :=
            modifyPathForRemote env.pathCfg env.mkRel currToken
              workingDirectory true
          parseLoop env rules workingDirectory fuel
            { st with d_command := st.d_command ++ [replacedPath],
                      d_dependenciesCommand :=
                        st.d_dependenciesCommand ++ [currToken],
                      d_inputFiles := st.d_inputFiles ++ [currToken],
                      d_originalCommand := rest }

/-- The rule table, if any, for a compiler basename; mirrors the lookup
over `getParsedCommandMap()` (an `unordered_map` with unspecified
iteration order, modelled in initializer order; the compiler-name sets are
disjoint in practice and the theorems below hold for any order). -/
def getParsedCommandRules (env : ParseEnv) (compiler : Str) :
    Option (List RuleEntry) :=
  if compiler ∈ env.dflt.gccNames then some gccRulesMap
  else if compiler ∈ env.dflt.gccPreprocessorNames then
    some gccPreprocessorRulesMap
  else if compiler ∈ env.dflt.sunNames then some sunCPPRulesMap
  else if compiler ∈ env.dflt.aixNames then some aixRulesMap
  else none

/-- Interleaving `-Xpreprocessor` before each element. -/
def interleaveXpre (l : List Str) : List Str :=
  l.foldr (fun a acc => str "-Xpreprocessor" :: a :: acc) []

/-- Model of `ParsedCommandFactory::createParsedCommand`. -/
def createParsedCommand (env : ParseEnv) (fuel : Nat) (command : List Str)
    (workingDirectory : Str) : Except String ParsedCommandSt :=
  if command = [] then .ok initSt
  else
    match mkParsedCommand env command workingDirectory with
    | .error e => .error e
    | .ok parsedCommand =>
      match getParsedCommandRules env parsedCommand.d_compiler with
      | none => .ok { parsedCommand with d_containsUnsupportedOptions := true }
      | some rulesToUse =>
        match parseLoop env rulesToUse workingDirectory fuel parsedCommand with
        | .error e => .error e
        | .ok parsedCommand =>
          if parsedCommand.d_containsUnsupportedOptions = true ∨
              parsedCommand.d_inputFiles = [] then
            .ok { parsedCommand with d_compilerCommand := false }
          else
            let parsedCommand :=
              if parsedCommand.d_compilerCommand = false then
                { parsedCommand with d_linkerCommand := true }
              else parsedCommand
            let afterPre : Except String ParsedCommandSt :=
              if parsedCommand.d_preProcessorOptions ≠ [] then
                match parseLoop env gccPreprocessorRulesMap workingDirectory
                    fuel { initSt with d_originalCommand :=
                             parsedCommand.d_preProcessorOptions } with
                | .error e => .error e
                | .ok preprocessorCommand =>
                  .ok { parsedCommand with
                    d_command := parsedCommand.d_command ++
                      interleaveXpre preprocessorCommand.d_command
                    d_dependenciesCommand :=
                      parsedCommand.d_dependenciesCommand ++
                        interleaveXpre preprocessorCommand.d_dependenciesCommand
                    d_commandProducts :=
                      preprocessorCommand.d_commandProducts.foldl
                        (fun s x => setInsert x s)
                        parsedCommand.d_commandProducts
                    d_commandDepsProducts :=
                      preprocessorCommand.d_commandDepsProducts.foldl
                        (fun s x => setInsert x s)
                        parsedCommand.d_commandDepsProducts
                    d_md_option_set :=
                      preprocessorCommand.d_md_option_set ||
                        parsedCommand.d_md_option_set }
              else .ok parsedCommand
            match afterPre with
            | .error e => .error e
            | .ok parsedCommand =>
              let parsedCommand :=
                { parsedCommand with
                  d_dependenciesCommand :=
                    parsedCommand.d_dependenciesCommand ++
                      parsedCommand.d_defaultDepsCommand }
              .ok { parsedCommand with
                d_originalCommand := command ++ parsedCommand.d_originalCommand }

/-- Model of `ParsedCommandFactory::createParsedLinkerCommand` (non-Solaris
build, i.e. using `LdRules`). -/
def createParsedLinkerCommand (env : ParseEnv) (fuel : Nat)
    (command : List Str) (workingDirectory : Str) :
    Except String ParsedCommandSt :=
  match mkParsedCommand env command workingDirectory with
  | .error e => .error e
  | .ok parsedCommand =>
    match parseLoop env ldRulesMap workingDirectory fuel parsedCommand with
    | .error e => .error e
    | .ok parsedCommand =>
      if parsedCommand.d_containsUnsupportedOptions = true ∨
          parsedCommand.d_compilerCommand = true then
        .ok parsedCommand
      else
        let parsedCommand := { parsedCommand with d_linkerCommand := true }
        .ok { parsedCommand with
          d_originalCommand := command ++ parsedCommand.d_originalCommand }

instance {α β : Type} [DecidableEq α] [DecidableEq β] :
    DecidableEq (Except α β) := fun x y =>
  match x, y with
  | .ok a, .ok b =>
    if h : a = b then .isTrue (by rw [h])
    else .isFalse (by intro hc; cases hc; exact h rfl)
  | .error a, .error b =>
    if h : a = b then .isTrue (by rw [h])
    else .isFalse (by intro hc; cases hc; exact h rfl)
  | .ok _, .error _ => .isFalse (fun hc => Except.noConfusion hc)
  | .error _, .ok _ => .isFalse (fun hc => Except.noConfusion hc)

/-- Flags whose preservation across parsing steps drives the classifier
invariant. -/
def flagsStable (st st' : ParsedCommandSt) : Prop :=
  st'.d_linkerCommand = st.d_linkerCommand ∧
  st'.d_compilerCommand = st.d_compilerCommand

theorem flagsStable_refl (st : ParsedCommandSt) : flagsStable st st :=
  ⟨rfl, rfl⟩

theorem flagsStable_trans {a b c : ParsedCommandSt}
    (h₁ : flagsStable a b) (h₂ : flagsStable b c) : flagsStable a c :=
  ⟨h₂.1.trans h₁.1, h₂.2.trans h₁.2⟩

theorem flagsStable_of_eq {st₁ st st' : ParsedCommandSt}
    (h : flagsStable st₁ st')
    (h₁ : st₁.d_linkerCommand = st.d_linkerCommand)
    (h₂ : st₁.d_compilerCommand = st.d_compilerCommand) :
    flagsStable st st' :=
  ⟨h.1.trans h₁, h.2.trans h₂⟩

theorem appendAndRemoveOption_flags {env : ParseEnv} {st : ParsedCommandSt}
    {wd : Str} {a b c d : Bool} {st' : ParsedCommandSt}
    (h : appendAndRemoveOption env st wd a b c d = .ok st') :
    flagsStable st st' := by
  rw [appendAndRemoveOption] at h
  cases horig : st.d_originalCommand with
  | nil => rw [horig] at h; simp at h
  | cons option rest =>
    rw [horig] at h
    simp only [] at h
    split_ifs at h <;>
      (cases h; exact ⟨rfl, rfl⟩)

theorem parseGccOption_flags {env : ParseEnv} {st : ParsedCommandSt}
    {wd option : Str} {a b c : Bool} {st' : ParsedCommandSt}
    (h : parseGccOption env st wd option a b c = .ok st') :
    flagsStable st st' := by
  rw [parseGccOption] at h
  cases horig : st.d_originalCommand with
  | nil => rw [horig] at h; simp at h
  | cons val rest =>
    rw [horig] at h
    simp only [] at h
    by_cases hval : val = option
    · rw [if_pos hval] at h
      cases h₁ : appendAndRemoveOption env st wd false a false false with
      | error e => rw [h₁] at h; simp at h
      | ok st₁ =>
        rw [h₁] at h
        simp only [] at h
        exact flagsStable_trans (appendAndRemoveOption_flags h₁)
          (appendAndRemoveOption_flags h)
    · rw [if_neg hval] at h
      split_ifs at h <;> (cases h; exact ⟨rfl, rfl⟩)

theorem parseOptionIsUnsupported_flags {st st' : ParsedCommandSt}
    (h : parseOptionIsUnsupported st = .ok st') : flagsStable st st' := by
  rw [parseOptionIsUnsupported] at h
  cases h
  exact ⟨rfl, rfl⟩

theorem parseInterfersWithDepsOption_flags {st : ParsedCommandSt}
    {option : Str} {st' : ParsedCommandSt}
    (h : parseInterfersWithDepsOption st option = .ok st') :
    flagsStable st st' := by
  rw [parseInterfersWithDepsOption] at h
  cases horig : st.d_originalCommand with
  | nil => rw [horig] at h; simp at h
  | cons tok rest =>
    rw [horig] at h
    simp only [] at h
    split_ifs at h <;> (cases h; exact ⟨rfl, rfl⟩)

theorem parseIsPreprocessorArgOption_flags {st : ParsedCommandSt}
    {option : Str} {st' : ParsedCommandSt}
    (h : parseIsPreprocessorArgOption st option = .ok st') :
    flagsStable st st' := by
  rw [parseIsPreprocessorArgOption] at h
  cases horig : st.d_originalCommand with
  | nil => rw [horig] at h; simp at h
  | cons val rest =>
    rw [horig] at h
    simp only [] at h
    split_ifs at h
    · cases h; exact ⟨rfl, rfl⟩
    · cases rest with
      | nil => simp at h
      | cons nxt rest' =>
        simp only [] at h
        cases h; exact ⟨rfl, rfl⟩
    · cases h; exact ⟨rfl, rfl⟩

theorem parseIsMacro_flags {st : ParsedCommandSt} {option : Str}
    {st' : ParsedCommandSt} (h : parseIsMacro st option = .ok st') :
    flagsStable st st' := by
  rw [parseIsMacro] at h
  cases horig : st.d_originalCommand with
  | nil => rw [horig] at h; simp at h
  | cons token rest =>
    rw [horig] at h
    simp only [] at h
    split_ifs at h
    · cases rest with
      | nil => simp at h
      | cons arg rest' =>
        simp only [] at h
        cases h; exact ⟨rfl, rfl⟩
    · cases h; exact ⟨rfl, rfl⟩

theorem parseOptionSetsGccLanguage_flags {env : ParseEnv}
    {st : ParsedCommandSt} {wd option : Str} {st' : ParsedCommandSt}
    (h : parseOptionSetsGccLanguage env st wd option = .ok st') :
    flagsStable st st' := by
  rw [parseOptionSetsGccLanguage] at h
  cases horig : st.d_originalCommand with
  | nil => rw [horig] at h; simp at h
  | cons tok rest =>
    rw [horig] at h
    simp only [] at h
    by_cases htok : tok = option
    · rw [if_pos htok] at h
      cases rest with
      | nil =>
        simp only [] at h
        cases h; exact ⟨rfl, rfl⟩
      | cons language rest' =>
        simp only [] at h
        by_cases hl : language ∈ env.dflt.gccLanguages
        · rw [if_pos hl] at h
          exact flagsStable_of_eq (parseGccOption_flags h) rfl rfl
        · rw [if_neg hl] at h
          exact flagsStable_of_eq (parseGccOption_flags h) rfl rfl
    · rw [if_neg htok] at h
      by_cases hl : (tok.drop option.length) ∈ env.dflt.gccLanguages
      · rw [if_pos hl] at h
        exact flagsStable_of_eq (parseGccOption_flags h) rfl rfl
      · rw [if_neg hl] at h
        exact flagsStable_of_eq (parseGccOption_flags h) rfl rfl

theorem parseOptionCoverageOutput_flags {st st' : ParsedCommandSt}
    (h : parseOptionCoverageOutput st = .ok st') : flagsStable st st' := by
  rw [parseOptionCoverageOutput] at h
  cases horig : st.d_originalCommand with
  | nil => rw [horig] at h; simp at h
  | cons tok rest =>
    rw [horig] at h
    simp only [] at h
    cases h; exact ⟨rfl, rfl⟩

theorem parseOptionSplitDwarf_flags {env : ParseEnv} {st : ParsedCommandSt}
    {wd : Str} {st' : ParsedCommandSt}
    (h : parseOptionSplitDwarf env st wd = .ok st') : flagsStable st st' := by
  rw [parseOptionSplitDwarf] at h
  exact flagsStable_of_eq (appendAndRemoveOption_flags h) rfl rfl

theorem parseOptionSolarisPhase_flags {env : ParseEnv} {st : ParsedCommandSt}
    {wd : Str} {st' : ParsedCommandSt}
    (h : parseOptionSolarisPhase env st wd = .ok st') : flagsStable st st' := by
  rw [parseOptionSolarisPhase] at h
  split_ifs at h
  · exact parseOptionIsUnsupported_flags h
  · cases h₁ : appendAndRemoveOption env st wd false true false false with
    | error e => rw [h₁] at h; simp at h
    | ok st₁ =>
      rw [h₁] at h
      simp only [] at h
      cases h₂ : appendAndRemoveOption env st₁ wd false true false false with
      | error e => rw [h₂] at h; simp at h
      | ok st₂ =>
        rw [h₂] at h
        simp only [] at h
        exact flagsStable_trans (appendAndRemoveOption_flags h₁)
          (flagsStable_trans (appendAndRemoveOption_flags h₂)
            (appendAndRemoveOption_flags h))

theorem parseOptionRedirectsCoverageOutput_flags {env : ParseEnv}
    {st : ParsedCommandSt} {wd : Str} {st' : ParsedCommandSt}
    (h : parseOptionRedirectsCoverageOutput env st wd = .ok st') :
    flagsStable st st' := by
  rw [parseOptionRedirectsCoverageOutput] at h
  cases horig : st.d_originalCommand with
  | nil => rw [horig] at h; simp at h
  | cons tok rest =>
    rw [horig] at h
    simp only [] at h
    cases hfind : findCharIdx '=' tok with
    | some i => rw [hfind] at h; simp only [] at h; cases h; exact ⟨rfl, rfl⟩
    | none => rw [hfind] at h; simp only [] at h; cases h; exact ⟨rfl, rfl⟩

theorem parseOptionNative_flags {env : ParseEnv} {st : ParsedCommandSt}
    {wd : Str} {st' : ParsedCommandSt}
    (h : parseOptionNative env st wd = .ok st') : flagsStable st st' := by
  rw [parseOptionNative] at h
  cases horig : st.d_originalCommand with
  | nil => rw [horig] at h; simp at h
  | cons tok rest =>
    rw [horig] at h
    simp only [] at h
    cases hfind : findCharIdx '=' tok with
    | some i =>
      rw [hfind] at h
      simp only [] at h
      split_ifs at h
      · exact parseOptionIsUnsupported_flags h
      · exact appendAndRemoveOption_flags h
    | none =>
      rw [hfind] at h
      simp only [] at h
      exact appendAndRemoveOption_flags h

theorem parseOptionParam_flags {env : ParseEnv} {st : ParsedCommandSt}
    {wd option : Str} {st' : ParsedCommandSt}
    (h : parseOptionParam env st wd option = .ok st') : flagsStable st st' := by
  rw [parseOptionParam] at h
  cases horig : st.d_originalCommand with
  | nil => rw [horig] at h; simp at h
  | cons val rest =>
    rw [horig] at h
    simp only [] at h
    split_ifs at h
    · exact parseOptionIsUnsupported_flags h
    · cases h₁ : appendAndRemoveOption env st wd false true false false with
      | error e => rw [h₁] at h; simp at h
      | ok st₁ =>
        rw [h₁] at h
        simp only [] at h
        exact flagsStable_trans (appendAndRemoveOption_flags h₁)
          (appendAndRemoveOption_flags h)
    · exact appendAndRemoveOption_flags h

theorem parseLdLibrary_flags {env : ParseEnv} {st : ParsedCommandSt}
    {wd option : Str} {st' : ParsedCommandSt}
    (h : parseLdLibrary env st wd option = .ok st') : flagsStable st st' := by
  rw [parseLdLibrary] at h
  cases horig : st.d_originalCommand with
  | nil => rw [horig] at h; simp at h
  | cons val rest =>
    rw [horig] at h
    simp only [] at h
    by_cases hval : val = option
    · rw [if_pos hval] at h
      cases h₁ : appendAndRemoveOption env st wd false false false false with
      | error e => rw [h₁] at h; simp at h
      | ok st₁ =>
        rw [h₁] at h
        simp only [] at h
        cases horig₁ : st₁.d_originalCommand with
        | nil => rw [horig₁] at h; simp at h
        | cons library rest₁ =>
          rw [horig₁] at h
          simp only [] at h
          cases h₂ : appendAndRemoveOption env st₁ wd false false false false
            with
          | error e => rw [h₂] at h; simp at h
          | ok st₂ =>
            rw [h₂] at h
            simp only [] at h
            refine flagsStable_trans (appendAndRemoveOption_flags h₁)
              (flagsStable_trans (appendAndRemoveOption_flags h₂) ?_)
            split_ifs at h
            · exact parseOptionIsUnsupported_flags h
            · cases h; exact ⟨rfl, rfl⟩
            · cases h; exact ⟨rfl, rfl⟩
    · rw [if_neg hval] at h
      cases h₂ : appendAndRemoveOption env st wd false false false false with
      | error e => rw [h₂] at h; simp at h
      | ok st₂ =>
        rw [h₂] at h
        simp only [] at h
        refine flagsStable_trans (appendAndRemoveOption_flags h₂) ?_
        split_ifs at h
        · exact parseOptionIsUnsupported_flags h
        · cases h; exact ⟨rfl, rfl⟩
        · cases h; exact ⟨rfl, rfl⟩

theorem ldLibraryPathLoop_flags {env : ParseEnv} {wd option : Str}
    {kind : Nat} : ∀ {tokens : List Str} {st st' : ParsedCommandSt},
    ldLibraryPathLoop env wd option kind tokens st = .ok st' →
    flagsStable st st' := by
  intro tokens
  induction tokens with
  | nil =>
    intro st st' h
    rw [ldLibraryPathLoop] at h
    cases h; exact ⟨rfl, rfl⟩
  | cons token rest ih =>
    intro st st' h
    rw [ldLibraryPathLoop] at h
    split_ifs at h
    · exact flagsStable_trans (by exact ⟨rfl, rfl⟩ : flagsStable st _) (by
        have := ih h
        refine flagsStable_trans ?_ this
        rw [pushLdDir]
        split_ifs <;> exact ⟨rfl, rfl⟩)
    · exact parseOptionIsUnsupported_flags h
    · exact ih h

theorem parseLdLibraryPath_flags {env : ParseEnv} {st : ParsedCommandSt}
    {wd option : Str} {st' : ParsedCommandSt}
    (h : parseLdLibraryPath env st wd option = .ok st') :
    flagsStable st st' := by
  rw [parseLdLibraryPath] at h
  cases horig : st.d_originalCommand with
  | nil => rw [horig] at h; simp at h
  | cons val rest =>
    rw [horig] at h
    simp only [] at h
    by_cases hval : val = option
    · rw [if_pos hval] at h
      cases rest with
      | nil => simp at h
      | cons libraryPath rest' =>
        simp only [] at h
        by_cases hlib : libraryPath = []
        · rw [if_pos hlib] at h
          exact flagsStable_of_eq (parseOptionIsUnsupported_flags h) rfl rfl
        · rw [if_neg hlib] at h
          exact flagsStable_of_eq (ldLibraryPathLoop_flags h) rfl rfl
    · rw [if_neg hval] at h
      split_ifs at h <;>
        first
        | exact flagsStable_of_eq (parseOptionIsUnsupported_flags h) rfl rfl
        | exact flagsStable_of_eq (ldLibraryPathLoop_flags h) rfl rfl

theorem parseLdOptionState_flags {env : ParseEnv} {st : ParsedCommandSt}
    {wd option : Str} {st' : ParsedCommandSt}
    (h : parseLdOptionState env st wd option = .ok st') :
    flagsStable st st' := by
  rw [parseLdOptionState] at h
  split_ifs at h
  · exact flagsStable_of_eq (appendAndRemoveOption_flags h) rfl rfl
  · cases hlast : st.d_bstaticStack.getLast? with
    | some b =>
      rw [hlast] at h
      simp only [] at h
      exact flagsStable_of_eq (appendAndRemoveOption_flags h) rfl rfl
    | none => rw [hlast] at h; simp at h
  · exact parseOptionIsUnsupported_flags h

theorem parseLdOptionEmulation_flags {st : ParsedCommandSt} {option : Str}
    {st' : ParsedCommandSt}
    (h : parseLdOptionEmulation st option = .ok st') : flagsStable st st' := by
  rw [parseLdOptionEmulation] at h
  cases horig : st.d_originalCommand with
  | nil => rw [horig] at h; simp at h
  | cons token rest =>
    rw [horig] at h
    simp only [] at h
    split_ifs at h
    · cases rest with
      | nil => simp at h
      | cons arg rest' =>
        simp only [] at h
        cases h; exact ⟨rfl, rfl⟩
    · cases h; exact ⟨rfl, rfl⟩

/-- Every handler leaves `d_linkerCommand` unchanged, and every handler
other than the `-c` handler leaves `d_compilerCommand` unchanged. -/
theorem applyRule_flags {env : ParseEnv} {r : Rule} {st : ParsedCommandSt}
    {wd option : Str} {st' : ParsedCommandSt}
    (h : applyRule env r st wd option = .ok st') :
    st'.d_linkerCommand = st.d_linkerCommand ∧
    (r ≠ Rule.isCompile → st'.d_compilerCommand = st.d_compilerCommand) := by
  cases r with
  | simple =>
    have := appendAndRemoveOption_flags h
    exact ⟨this.1, fun _ => this.2⟩
  | interfersWithDeps =>
    have := parseInterfersWithDepsOption_flags h
    exact ⟨this.1, fun _ => this.2⟩
  | isInputPath =>
    have := parseGccOption_flags h
    exact ⟨this.1, fun _ => this.2⟩
  | isEqualInputPath =>
    have := parseGccOption_flags h
    exact ⟨this.1, fun _ => this.2⟩
  | isCompile =>
    rw [applyRule, parseIsCompileOption] at h
    have := appendAndRemoveOption_flags h
    exact ⟨this.1, fun hne => absurd rfl hne⟩
  | redirectsOutput =>
    have := parseGccOption_flags h
    exact ⟨this.1, fun _ => this.2⟩
  | redirectsDepsOutput =>
    have := parseGccOption_flags h
    exact ⟨this.1, fun _ => this.2⟩
  | depsRuleTarget =>
    have := parseGccOption_flags h
    exact ⟨this.1, fun _ => this.2⟩
  | isPreprocessorArg =>
    have := parseIsPreprocessorArgOption_flags h
    exact ⟨this.1, fun _ => this.2⟩
  | isMacro =>
    have := parseIsMacro_flags h
    exact ⟨this.1, fun _ => this.2⟩
  | setsGccLanguage =>
    have := parseOptionSetsGccLanguage_flags h
    exact ⟨this.1, fun _ => this.2⟩
  | isUnsupported =>
    have := parseOptionIsUnsupported_flags h
    exact ⟨this.1, fun _ => this.2⟩
  | coverageOutput =>
    have := parseOptionCoverageOutput_flags h
    exact ⟨this.1, fun _ => this.2⟩
  | redirectsCoverageOutput =>
    have := parseOptionRedirectsCoverageOutput_flags h
    exact ⟨this.1, fun _ => this.2⟩
  | splitDwarf =>
    have := parseOptionSplitDwarf_flags h
    exact ⟨this.1, fun _ => this.2⟩
  | solarisPhase =>
    have := parseOptionSolarisPhase_flags h
    exact ⟨this.1, fun _ => this.2⟩
  | native =>
    have := parseOptionNative_flags h
    exact ⟨this.1, fun _ => this.2⟩
  | param =>
    have := parseOptionParam_flags h
    exact ⟨this.1, fun _ => this.2⟩
  | ldLibrary =>
    have := parseLdLibrary_flags h
    exact ⟨this.1, fun _ => this.2⟩
  | ldLibraryPath =>
    have := parseLdLibraryPath_flags h
    exact ⟨this.1, fun _ => this.2⟩
  | ldDynamic =>
    rw [applyRule, parseLdOptionDynamic] at h
    have := appendAndRemoveOption_flags h
    exact ⟨this.1, fun _ => this.2⟩
  | ldStatic =>
    rw [applyRule, parseLdOptionStatic] at h
    have := appendAndRemoveOption_flags h
    exact ⟨this.1, fun _ => this.2⟩
  | ldState =>
    have := parseLdOptionState_flags h
    exact ⟨this.1, fun _ => this.2⟩
  | ldEmulation =>
    have := parseLdOptionEmulation_flags h
    exact ⟨this.1, fun _ => this.2⟩

theorem lookupRule_mem {k : Str} {rules : List RuleEntry} {r : Rule}
    (h : lookupRule k rules = some r) : r ∈ rules.map Prod.snd := by
  induction rules with
  | nil => simp [lookupRule] at h
  | cons p ps ih =>
    rw [lookupRule] at h
    split_ifs at h
    · cases h; exact List.mem_cons_self _ _
    · exact List.mem_cons_of_mem _ (ih h)

theorem matchCompilerOptions_rule_mem {tok : Str} {rules : List RuleEntry}
    {k : Str} {r : Rule}
    (h : matchCompilerOptions tok rules = (k, some r)) :
    r ∈ rules.map Prod.snd := by
  rw [matchCompilerOptions] at h
  split_ifs at h
  · simp only [] at h
    cases hlook : lookupRule (cleanOption tok) rules with
    | some r₂ =>
      rw [hlook] at h
      simp only [] at h
      cases h
      exact lookupRule_mem hlook
    | none =>
      rw [hlook] at h
      simp only [] at h
      cases hfind : findFirstMatch tok rules with
      | some p =>
        rw [hfind] at h
        simp only [] at h
        cases h
        exact List.mem_map.mpr ⟨p, (findFirstMatch_mem hfind).1, rfl⟩
      | none => rw [hfind] at h; simp at h
  · simp at h

/-- The token loop never sets `d_linkerCommand`, and never sets
`d_compilerCommand` when the rule table has no `-c`-style rule. -/
theorem parseLoop_flags {env : ParseEnv} {rules : List RuleEntry} {wd : Str} :
    ∀ {fuel : Nat} {st st' : ParsedCommandSt},
    parseLoop env rules wd fuel st = .ok st' →
    st'.d_linkerCommand = st.d_linkerCommand ∧
    ((∀ p ∈ rules, p.2 ≠ Rule.isCompile) →
      st'.d_compilerCommand = st.d_compilerCommand) := by
  intro fuel
  induction fuel with
  | zero => intro st st' h; simp [parseLoop] at h
  | succ fuel ih =>
    intro st st' h
    rw [parseLoop] at h
    cases horig : st.d_originalCommand with
    | nil =>
      rw [horig] at h
      simp only [] at h
      cases h
      exact ⟨rfl, fun _ => rfl⟩
    | cons currToken rest =>
      rw [horig] at h
      simp only [] at h
      cases hm : matchCompilerOptions currToken rules with
      | mk matchedKey o =>
        cases o with
        | some r =>
          rw [hm] at h
          simp only [] at h
          cases happ : applyRule env r st wd matchedKey with
          | error e => rw [happ] at h; simp at h
          | ok st₁ =>
            rw [happ] at h
            simp only [] at h
            have hflags := applyRule_flags happ
            have hih := ih h
            refine ⟨hih.1.trans hflags.1, fun hnone => ?_⟩
            have hrne : r ≠ Rule.isCompile := by
              have hmem := matchCompilerOptions_rule_mem hm
              obtain ⟨p, hp, hpr⟩ := List.mem_map.mp hmem
              rw [← hpr]
              exact hnone p hp
            exact (hih.2 hnone).trans (hflags.2 hrne)
        | none =>
          rw [hm] at h
          simp only [] at h
          split_ifs at h
          · have hih := ih h
            exact ⟨hih.1, fun hnone => hih.2 hnone⟩
          · have hih := ih h
            exact ⟨hih.1, fun hnone => hih.2 hnone⟩
          · cases happ : appendAndRemoveOption env st wd false true false false
              with
            | error e => rw [happ] at h; simp at h
            | ok st₁ =>
              rw [happ] at h
              simp only [] at h
              have hflags := appendAndRemoveOption_flags happ
              have hih := ih h
              exact ⟨hih.1.trans hflags.1,
                fun hnone => (hih.2 hnone).trans hflags.2⟩
          · have hih := ih h
            exact ⟨hih.1, fun hnone => hih.2 hnone⟩

theorem mkParsedCommand_flags {env : ParseEnv} {command : List Str}
    {wd : Str} {pc : ParsedCommandSt}
    (h : mkParsedCommand env command wd = .ok pc) :
    pc.d_compilerCommand = false ∧ pc.d_linkerCommand = false ∧
    pc.d_containsUnsupportedOptions = false := by
  cases command with
  | nil => rw [mkParsedCommand] at h; cases h; exact ⟨rfl, rfl, rfl⟩
  | cons compiler rest =>
    rw [mkParsedCommand] at h
    split_ifs at h
    · cases h; exact ⟨rfl, rfl, rfl⟩
    · cases hbase : commandBasename env compiler with
      | error e => rw [hbase] at h; simp at h
      | ok base =>
        rw [hbase] at h
        simp only [] at h
        split_ifs at h <;> (cases h; exact ⟨rfl, rfl, rfl⟩)

/-- A concrete parse environment for evaluating the theorems on sample
commands: no path rewriting configuration, a filesystem with no symlinks,
directories or regular files, and representative compiler tables. -/
def testEnv : ParseEnv :=
  ⟨⟨[], [], false⟩, fun p _ => p, false,
   ⟨fun _ => [], fun _ => false, fun p => p, fun _ => false, fun _ => false⟩,
   ⟨[str "gcc", str "g++", str "clang", str "clang++"],
    [str "gcc-preprocessor"],
    [str "CC"], [str "xlc", str "xlC"],
    [str "gcc", str "clang"],
    [str "c", str "c++"],
    [str "-M"], [str "-xM"], [str "-M"], str "/tmp/recc-aix-dep"⟩⟩

/-- C5 (counterexample): the parser does NOT stop at a lone "-" or at an
`@`-token.  Starting from `["-", "foo.c"]` (resp. `["@rsp", "foo.c"]`) it
still parses the following token `"foo.c"` into the input files, while
marking the command unsupported. -/
theorem parse_dash_stops_counterexample :
    (Except.map (fun st => (st.d_containsUnsupportedOptions, st.d_inputFiles))
        (parseLoop testEnv gccRulesMap [] 3
          { initSt with d_originalCommand := [str "-", str "foo.c"] })
      = .ok (true, [str "foo.c"])) ∧
    (Except.map (fun st => (st.d_containsUnsupportedOptions, st.d_inputFiles))
        (parseLoop testEnv gccRulesMap [] 3
          { initSt with d_originalCommand := [str "@rsp", str "foo.c"] })
      = .ok (true, [str "foo.c"])) := by
  exact ⟨rfl, rfl⟩

/-- C5 (amended): on a token that is exactly "-" or that begins with '@'
and matches no rule of the table, the parser marks the command
unsupported, removes that one token, and CONTINUES parsing the remaining
tokens of the original command. -/
theorem parse_dash_amended (env : ParseEnv) (rules : List RuleEntry)
    (wd : Str) (fuel : Nat) (st : ParsedCommandSt) (currToken : Str)
    (rest : List Str)
    (horig : st.d_originalCommand = currToken :: rest)
    (hmatch : (matchCompilerOptions currToken rules).2 = none)
    (htok : currToken = str "-" ∨ currToken.head? = some '@') :
    parseLoop env rules wd (fuel + 1) st =
      parseLoop env rules wd fuel
        { st with d_containsUnsupportedOptions := true,
                  d_originalCommand := rest } := by
  rw [parseLoop, horig]
  simp only []
  rcases hm : matchCompilerOptions currToken rules with ⟨k, o⟩
  rw [hm] at hmatch
  simp only [] at hmatch
  subst hmatch
  simp only []
  rcases htok with hdash | hat
  · rw [if_pos hdash]
  · by_cases hdash : currToken = str "-"
    · rw [if_pos hdash]
    · rw [if_neg hdash]
      have hne : currToken ≠ [] := by
        intro hh; rw [hh] at hat; simp at hat
      rw [if_pos ⟨hne, hat⟩]

theorem parse_dash_amended_witness :
    parseLoop testEnv gccRulesMap [] 2
        { initSt with d_originalCommand := [str "-", str "x.c"] } =
      parseLoop testEnv gccRulesMap [] 1
        { initSt with d_containsUnsupportedOptions := true,
                      d_originalCommand := [str "x.c"] } :=
  parse_dash_amended testEnv gccRulesMap [] 1
    { initSt with d_originalCommand := [str "-", str "x.c"] }
    (str "-") [str "x.c"] rfl (by decide) (Or.inl rfl)

/-- C8: every `ParsedCommand` produced by `createParsedCommand` or
`createParsedLinkerCommand` never has the compiler and linker flags both
set, and when it records unsupported options both flags are clear (the
command is not recc-eligible). -/
theorem parsed_command_flags_invariant (env : ParseEnv) (fuel : Nat)
    (command : List Str) (wd : Str) (pc : ParsedCommandSt)
    (h : createParsedCommand env fuel command wd = .ok pc ∨
      createParsedLinkerCommand env fuel command wd = .ok pc) :
    ¬(pc.d_compilerCommand = true ∧ pc.d_linkerCommand = true) ∧
    (pc.d_containsUnsupportedOptions = true →
      pc.d_compilerCommand = false ∧ pc.d_linkerCommand = false) := by
  rcases h with hc | hc
  · by_cases hcmd : command = []
    · rw [createParsedCommand, if_pos hcmd] at hc
      cases hc
      exact ⟨fun hx => by simp [initSt] at hx, fun hu => by simp [initSt] at hu⟩
    · rw [createParsedCommand, if_neg hcmd] at hc
      cases hmk : mkParsedCommand env command wd with
      | error e => rw [hmk] at hc; simp at hc
      | ok pc₀ =>
        rw [hmk] at hc
        simp only [] at hc
        obtain ⟨hcomp₀, hlink₀, hunsup₀⟩ := mkParsedCommand_flags hmk
        cases hrules : getParsedCommandRules env pc₀.d_compiler with
        | none =>
          rw [hrules] at hc
          simp only [] at hc
          cases hc
          exact ⟨fun hx => by simp [hcomp₀] at hx,
            fun _ => ⟨hcomp₀, hlink₀⟩⟩
        | some rulesToUse =>
          rw [hrules] at hc
          simp only [] at hc
          cases hloop : parseLoop env rulesToUse wd fuel pc₀ with
          | error e => rw [hloop] at hc; simp at hc
          | ok pc₁ =>
            rw [hloop] at hc
            simp only [] at hc
            have hlink₁ : pc₁.d_linkerCommand = false :=
              (parseLoop_flags hloop).1.trans hlink₀
            by_cases hgate : pc₁.d_containsUnsupportedOptions = true ∨
                pc₁.d_inputFiles = []
            · rw [if_pos hgate] at hc
              cases hc
              exact ⟨fun hx => by simp at hx,
                fun _ => ⟨rfl, hlink₁⟩⟩
            · rw [if_neg hgate] at hc
              push_neg at hgate
              have hunsup₁ : pc₁.d_containsUnsupportedOptions = false := by
                cases hu : pc₁.d_containsUnsupportedOptions
                · rfl
                · exact absurd hu hgate.1
              by_cases hcomp₁ : pc₁.d_compilerCommand = false
              · rw [if_pos hcomp₁] at hc
                simp only [] at hc
                by_cases hpre : pc₁.d_preProcessorOptions = []
                · rw [if_neg (not_not_intro hpre)] at hc
                  simp only [] at hc
                  cases hc
                  exact ⟨fun hx => by simp [hcomp₁] at hx,
                    fun hu => by simp [hunsup₁] at hu⟩
                · rw [if_pos hpre] at hc
                  cases hploop : parseLoop env gccPreprocessorRulesMap wd fuel
                      { initSt with
                          d_originalCommand := pc₁.d_preProcessorOptions } with
                  | error e => rw [hploop] at hc; simp at hc
                  | ok pre =>
                    rw [hploop] at hc
                    simp only [] at hc
                    cases hc
                    exact ⟨fun hx => by simp [hcomp₁] at hx,
                      fun hu => by simp [hunsup₁] at hu⟩
              · rw [if_neg hcomp₁] at hc
                by_cases hpre : pc₁.d_preProcessorOptions = []
                · rw [if_neg (not_not_intro hpre)] at hc
                  simp only [] at hc
                  cases hc
                  exact ⟨fun hx => by simp [hlink₁] at hx,
                    fun hu => by simp [hunsup₁] at hu⟩
                · rw [if_pos hpre] at hc
                  cases hploop : parseLoop env gccPreprocessorRulesMap wd fuel
                      { initSt with
                          d_originalCommand := pc₁.d_preProcessorOptions } with
                  | error e => rw [hploop] at hc; simp at hc
                  | ok pre =>
                    rw [hploop] at hc
                    simp only [] at hc
                    cases hc
                    exact ⟨fun hx => by simp [hlink₁] at hx,
                      fun hu => by simp [hunsup₁] at hu⟩
  · rw [createParsedLinkerCommand] at hc
    cases hmk : mkParsedCommand env command wd with
    | error e => rw [hmk] at hc; simp at hc
    | ok pc₀ =>
      rw [hmk] at hc
      simp only [] at hc
      obtain ⟨hcomp₀, hlink₀, hunsup₀⟩ := mkParsedCommand_flags hmk
      cases hloop : parseLoop env ldRulesMap wd fuel pc₀ with
      | error e => rw [hloop] at hc; simp at hc
      | ok pc₁ =>
        rw [hloop] at hc
        simp only [] at hc
        have hnocomp : ∀ p ∈ ldRulesMap, p.2 ≠ Rule.isCompile := by decide
        have hflags := parseLoop_flags hloop
        have hlink₁ : pc₁.d_linkerCommand = false := hflags.1.trans hlink₀
        have hcomp₁ : pc₁.d_compilerCommand = false :=
          (hflags.2 hnocomp).trans hcomp₀
        by_cases hgate : pc₁.d_containsUnsupportedOptions = true ∨
            pc₁.d_compilerCommand = true
        · rw [if_pos hgate] at hc
          cases hc
          exact ⟨fun hx => by simp [hcomp₁] at hx,
            fun _ => ⟨hcomp₁, hlink₁⟩⟩
        · rw [if_neg hgate] at hc
          push_neg at hgate
          have hunsup₁ : pc₁.d_containsUnsupportedOptions = false := by
            cases hu : pc₁.d_containsUnsupportedOptions
            · rfl
            · exact absurd hu hgate.1
          cases hc
          exact ⟨fun hx => by simp [hcomp₁] at hx,
            fun hu => by simp [hunsup₁] at hu⟩

/-- The sample invocation used to evaluate the C8 invariant. -/
def c8SampleCommand : List Str := [str "gcc", str "-c", str "foo.c"]

/-- The `ParsedCommand` the model produces for `gcc -c foo.c`. -/
def c8SamplePc : ParsedCommandSt :=
  (createParsedCommand testEnv 4 c8SampleCommand []).toOption.getD initSt

theorem parsed_command_flags_invariant_witness :
    ¬(c8SamplePc.d_compilerCommand = true ∧
        c8SamplePc.d_linkerCommand = true) ∧
    (c8SamplePc.d_containsUnsupportedOptions = true →
      c8SamplePc.d_compilerCommand = false ∧
        c8SamplePc.d_linkerCommand = false) :=
  parsed_command_flags_invariant testEnv 4 c8SampleCommand [] c8SamplePc
    (Or.inl (by decide))

instance (c : Char) : Decidable (plainChar c) :=
  inferInstanceAs (Decidable (_ ∧ _))

instance (f : Str) : Decidable (goodFile f) :=
  inferInstanceAs (Decidable (_ ∧ _))

theorem make_rules_reformat_invariant_witness :
    dependencies_from_make_rules
        (renderRule (str "foo.o") [SepTok.sp] (str "a.h")
          [([SepTok.cont, SepTok.sp], str "b.h")] [SepTok.sp]) false =
      setOfList (str "a.h" :: [([SepTok.cont, SepTok.sp],
        str "b.h")].map Prod.snd) :=
  make_rules_reformat_invariant (str "foo.o") (str "a.h") [SepTok.sp]
    [SepTok.sp] [([SepTok.cont, SepTok.sp], str "b.h")]
    (by decide) (by decide) (by decide)

/-! ## Product derivation (`deps.cpp`) -/

/-- Index of the last occurrence of `c` in `s`
(`std::string::find_last_of`). -/
def findLastIdx (c : Char) (s : Str) : Option Nat :=
  match findCharIdx c s.reverse with
  | some i => some (s.length - 1 - i)
  | none => none

/-- Model of `FileUtils::stripDirectory`. -/
def stripDirectory (path : Str) : Str :=
  match findLastIdx '/' path with
  | some i => path.drop (i + 1)
  | none => path

/-- Model of `FileUtils::replaceSuffix`: `substr(0, rfind('.'))` keeps the
whole string when there is no dot. -/
def replaceSuffix (path suffix : Str) : Str :=
  match findLastIdx '.' path with
  | some i => path.take i ++ suffix
  | none => path ++ suffix

/-- The suffix after the last dot of a filename, if any. -/
def fileSuffix (file : Str) : Option Str :=
  match findLastIdx '.' file with
  | some i => some (file.drop (i + 1))
  | none => none

/-- Model of `Deps::is_header_file`. -/
def is_header_file (file : Str) : Bool :=
  match fileSuffix file with
  | some s => ([str "h", str "hh", str "H", str "hp", str "hxx", str "hpp",
      str "HPP", str "h++", str "tcc"]).contains s
  | none => false

/-- Model of `Deps::is_source_file`. -/
def is_source_file (file : Str) : Bool :=
  match fileSuffix file with
  | some s => ([str "cc", str "c", str "cp", str "cxx", str "cpp", str "CPP",
      str "c++", str "C"]).contains s
  | none => false

/-- Model of `Deps::is_aux_input_file`. -/
def is_aux_input_file (file : Str) (pc : ParsedCommandSt) : Bool :=
  if pc.d_isSunStudio then
    match fileSuffix file with
    | some s => ([str "il"]).contains s
    | none => false
  else false

/-- Model of `Deps::is_object_file`. -/
def is_object_file (file : Str) : Bool :=
  match fileSuffix file with
  | some s => ([str "a", str "o", str "so"]).contains s
  | none => false

/-- The input-classification loop at the top of `Deps::determine_products`;
the accumulators mirror the `headers`, `sources` and `objects` sets. -/
def classifyInputs (pc : ParsedCommandSt) :
    List Str → List Str × List Str × List Str →
    Except String (List Str × List Str × List Str)
  | [], acc => .ok acc
  | f :: fs, (h, s, o) =>
    if pc.d_compilerCommand = true ∧ is_header_file f = true then
      classifyInputs pc fs (setInsert f h, s, o)
    else if pc.d_compilerCommand = true ∧ is_source_file f = true then
      classifyInputs pc fs (h, setInsert f s, o)
    else if pc.d_compilerCommand = true ∧ is_aux_input_file f pc = true then
      classifyInputs pc fs (h, s, o)
    else if pc.d_linkerCommand = true ∧ is_object_file f = true then
      classifyInputs pc fs (h, s, setInsert f o)
    else .error "File uses a file suffix unsupported for caching"

/-- Model of `Deps::determine_products`. -/
def determine_products (pc : ParsedCommandSt) : Except String (List Str) :=
  match classifyInputs pc pc.d_inputFiles ([], [], []) with
  | .error e => .error e
  | .ok (headers, sources, objects) =>
    if headers = [] ∧ sources = [] ∧ objects = [] then .ok []
    else
      let result : List Str :=
        if pc.d_commandProducts ≠ [] then
          pc.d_commandProducts.foldl (fun s x => setInsert x s) []
        else if pc.d_linkerCommand = true then setInsert (str "a.out") []
        else
          sources.foldl
            (fun s src =>
              setInsert (stripDirectory (replaceSuffix src (str ".o"))) s)
            (headers.foldl (fun s hd => setInsert (hd ++ str ".gch") s) [])
      let result :=
        if pc.d_md_option_set || pc.d_qmakedep_option_set then
          let suffix := if pc.d_md_option_set then str ".d" else str ".u"
          if pc.d_commandDepsProducts ≠ [] then
            pc.d_commandDepsProducts.foldl (fun s x => setInsert x s) result
          else if pc.d_commandProducts ≠ [] then
            pc.d_commandProducts.foldl
              (fun s x => setInsert (replaceSuffix x suffix) s) result
          else
            sources.foldl
              (fun s src =>
                setInsert (stripDirectory (replaceSuffix src suffix)) s)
              (headers.foldl
                (fun s hd =>
                  setInsert (stripDirectory (replaceSuffix hd suffix)) s)
                result)
        else result
      let result :=
        if pc.d_coverage_option_set then
          if pc.d_commandCoverageProducts ≠ [] then
            pc.d_commandCoverageProducts.foldl (fun s x => setInsert x s)
              result
          else if pc.d_commandProducts ≠ [] then
            pc.d_commandProducts.foldl
              (fun s x => setInsert (replaceSuffix x (str ".gcno")) s) result
          else
            sources.foldl
              (fun s src =>
                setInsert (stripDirectory (replaceSuffix src (str ".gcno")))
                  s)
              (headers.foldl
                (fun s hd =>
                  setInsert (stripDirectory (replaceSuffix hd (str ".gcno")))
                    s)
                result)
        else result
      let result :=
        if pc.d_split_dwarf_option_set then
          if pc.d_commandProducts ≠ [] then
            if sources ≠ [] then
              pc.d_commandProducts.foldl
                (fun s x => setInsert (replaceSuffix x (str ".dwo")) s)
                result
            else result
          else
            sources.foldl
              (fun s src =>
                setInsert (stripDirectory (replaceSuffix src (str ".dwo")))
                  s)
              result
        else result
      .ok result

/-- The `.o`-suffix test `product.substr(product.size() - 2) == ".o"` of
`Deps::get_file_info`: `product.size() - 2` is computed in `size_t`, so it
underflows for names shorter than two characters and `substr` then throws
`std::out_of_range`. -/
def objSuffixCheck (product : Str) : Except String Bool :=
  if product.length < 2 then
    .error "std::out_of_range: product.substr(product.size() - 2)"
  else .ok (product.drop (product.length - 2) == str ".o")

/-- The products scan of `Deps::get_file_info` (the function afterwards
invokes the dependency subprocess, which is outside this model): the
normalized possible products and the collected `.o` object targets. -/
def get_file_info_scan :
    List Str → List Str → List Str → Except String (List Str × List Str)
  | [], possible, objectTargets => .ok (possible, objectTargets)
  | p :: ps, possible, objectTargets =>
    match objSuffixCheck p with
    | .error e => .error e
    | .ok b =>
      get_file_info_scan ps (setInsert (normalizePath p) possible)
        (if b then objectTargets ++ [p] else objectTargets)

/-- The non-linker entry of `Deps::get_file_info`, up to the products
scan. -/
def get_file_info (pc : ParsedCommandSt) :
    Except String (List Str × List Str) :=
  match determine_products pc with
  | .error e => .error e
  | .ok products => get_file_info_scan products [] []

/-- C7 (counterexample): a Sun Studio compile whose only input is the
auxiliary file `x.il` and whose command specified the product `out.o`:
every input is recognized, all three classification sets stay empty, and
`determine_products` returns the empty set instead of the `-o` products. -/
theorem determine_products_counterexample :
    determine_products
        { initSt with d_compilerCommand := true, d_isSunStudio := true,
                      d_inputFiles := [str "x.il"],
                      d_commandProducts := [str "out.o"] } = .ok [] ∧
    determine_products
        { initSt with d_compilerCommand := true, d_isSunStudio := true,
                      d_inputFiles := [str "x.il"],
                      d_commandProducts := [str "out.o"] } ≠
      .ok [str "out.o"] := by
  exact ⟨rfl, by decide⟩

/-- C7 (amended): with the make-dependency, coverage and split-dwarf
options clear, `determine_products` classifies every input by suffix —
rejecting with an exception any input unrecognized for the command's kind
— and derives the base products: the EMPTY set when no input landed in
the header/source/object sets (even if `-o` products were specified);
otherwise the `-o` products verbatim when present; otherwise `a.out` for
a linker command; otherwise `<header>.gch` per header and the basename of
each source with its extension replaced by `.o`. -/
theorem determine_products_amended (pc : ParsedCommandSt)
    (hmd : pc.d_md_option_set = false)
    (hq : pc.d_qmakedep_option_set = false)
    (hcov : pc.d_coverage_option_set = false)
    (hdw : pc.d_split_dwarf_option_set = false) :
    determine_products pc =
      match classifyInputs pc pc.d_inputFiles ([], [], []) with
      | .error e => .error e
      | .ok (headers, sources, objects) =>
        .ok (if headers = [] ∧ sources = [] ∧ objects = [] then []
          else if pc.d_commandProducts ≠ [] then
            pc.d_commandProducts.foldl (fun s x => setInsert x s) []
          else if pc.d_linkerCommand = true then [str "a.out"]
          else
            sources.foldl
              (fun s src =>
                setInsert (stripDirectory (replaceSuffix src (str ".o"))) s)
              (headers.foldl (fun s hd => setInsert (hd ++ str ".gch") s)
                [])) := by
  rw [determine_products]
  cases hclass : classifyInputs pc pc.d_inputFiles ([], [], []) with
  | error e => rfl
  | ok t =>
    obtain ⟨headers, sources, objects⟩ := t
    simp only []
    by_cases hempty : headers = [] ∧ sources = [] ∧ objects = []
    · rw [if_pos hempty, if_pos hempty]
    · rw [if_neg hempty, if_neg hempty]
      simp only [hmd, hq, hcov, hdw]
      rfl

/-- The sample compile used to evaluate the C7 characterization. -/
def c7SamplePc : ParsedCommandSt :=
  { initSt with d_compilerCommand := true,
                d_inputFiles := [str "src/main.c", str "util.h"] }

theorem determine_products_amended_witness :
    determine_products c7SamplePc =
      match classifyInputs c7SamplePc c7SamplePc.d_inputFiles ([], [], []) with
      | .error e => .error e
      | .ok (headers, sources, objects) =>
        .ok (if headers = [] ∧ sources = [] ∧ objects = [] then []
          else if c7SamplePc.d_commandProducts ≠ [] then
            c7SamplePc.d_commandProducts.foldl (fun s x => setInsert x s) []
          else if c7SamplePc.d_linkerCommand = true then [str "a.out"]
          else
            sources.foldl
              (fun s src =>
                setInsert (stripDirectory (replaceSuffix src (str ".o"))) s)
              (headers.foldl (fun s hd => setInsert (hd ++ str ".gch") s)
                [])) :=
  determine_products_amended c7SamplePc rfl rfl rfl rfl

/-- C10: for the invocation `gcc -c foo.c -o a` the derived product set is
the single name `a`; the `.o`-suffix extraction of `Deps::get_file_info`
computes `substr(size() - 2)` on it, the `size_t` subtraction underflows,
and `substr` throws `std::out_of_range`, so the scan faults instead of
returning the command's file info. -/
theorem get_file_info_substr_fault :
    (createParsedCommand testEnv 6
        [str "gcc", str "-c", str "foo.c", str "-o", str "a"] []).bind
        determine_products = .ok [str "a"] ∧
    (createParsedCommand testEnv 6
        [str "gcc", str "-c", str "foo.c", str "-o", str "a"] []).bind
        get_file_info =
      .error "std::out_of_range: product.substr(product.size() - 2)" := by
  exact ⟨rfl, rfl⟩

/-! ## Action assembly (`actionbuilder.cpp`)

`DigestGenerator::make_digest` is an injective content hash, so a
message's digest is modelled by the message itself; the input-root digest
is carried as an opaque string.  The REAPI version comparison lives in
`env.cpp`, which is not among the repository's files.  Modelled from the
spec: a version string `major.minor` is an integer pair, compared
lexicographically, with 2.0, 2.1 and 2.2 the supported versions. -/

/-- Modelled from the spec:
`Env::configured_reapi_version_equal_to_or_newer_than` on
`(major, minor)` pairs, ordered lexicographically. -/
def versionGE (configured target : Nat × Nat) : Bool :=
  decide (target.1 < configured.1 ∨
    (configured.1 = target.1 ∧ target.2 ≤ configured.2))

/-- The fields of a REAPI `Command` message touched by
`ActionBuilder::populateCommandProto`. -/
structure CommandProto where
  arguments : List Str
  environmentVariables : List (Str × Str)
  outputFiles : List Str
  outputDirectories : List Str
  outputPaths : List Str
  platform : List (Str × Str)
  workingDirectory : Str
  deriving DecidableEq, Repr

/-- Model of `ActionBuilder::populateCommandProto` (the version test is
`versionGE`, modelled from the spec). -/
def populateCommandProto (reapi : Nat × Nat) (command : List Str)
    (outputFiles outputDirectories : List Str)
    (remoteEnvironment platformProperties : List (Str × Str))
    (workingDirectory : Str) : CommandProto :=
  let outputPathsSupported := versionGE reapi (2, 1)
  { arguments := command
    environmentVariables := remoteEnvironment
    outputFiles := if outputPathsSupported then [] else outputFiles
    outputDirectories :=
      if outputPathsSupported then [] else outputDirectories
    outputPaths :=
      if outputPathsSupported then outputFiles ++ outputDirectories else []
    platform := platformProperties.filter (fun p => decide (p.2 ≠ []))
    workingDirectory := workingDirectory }

/-- Model of `ActionBuilder::generateCommandProto`. -/
def generateCommandProto (cfg : PathConfig) (reapi : Nat × Nat)
    (command : List Str) (products outputDirectories : List Str)
    (remoteEnvironment platformProperties : List (Str × Str))
    (workingDirectory : Str) : CommandProto :=
  populateCommandProto reapi command products outputDirectories
    remoteEnvironment platformProperties
    (resolvePathFromPrefixMap cfg workingDirectory)

/-- The fields of the REAPI `Action` message set by
`ActionBuilder::BuildAction`: unset optional fields are `none`. -/
structure ActionProto where
  commandDigest : CommandProto
  inputRootDigest : Str
  doNotCache : Bool
  salt : Option Str
  platform : Option (List (Str × Str))
  deriving DecidableEq, Repr

/-- The tail of `ActionBuilder::BuildAction` after the input Merkle tree
is digested: Command assembly and the Action message fields. -/
def BuildActionTail (cfg : PathConfig) (reapi : Nat × Nat)
    (command : List Str) (products outputDirectories : List Str)
    (remoteEnvironment platformProperties : List (Str × Str))
    (workingDirectory inputRootDigest : Str) (uncacheable : Bool)
    (salt : Str) : CommandProto × ActionProto :=
  let commandProto := generateCommandProto cfg reapi command products
    outputDirectories remoteEnvironment platformProperties workingDirectory
  (commandProto,
   { commandDigest := commandProto
     inputRootDigest := inputRootDigest
     doNotCache := uncacheable
     salt := if salt ≠ [] then some salt else none
     platform :=
       if versionGE reapi (2, 2) then some commandProto.platform
       else none })

/-- C2: for a fixed invocation, a nonempty `RECC_ACTION_SALT` changes the
`Action` message (hence the action digest) and nothing else: the Command
message (hence the command digest), the input-root digest, `do_not_cache`
and the platform are those of the salt-free run, and only the salt field
differs; with an empty salt the field stays unset. -/
theorem action_salt_frame (cfg : PathConfig) (reapi : Nat × Nat)
    (command : List Str) (products outputDirectories : List Str)
    (remoteEnvironment platformProperties : List (Str × Str))
    (workingDirectory inputRootDigest : Str) (uncacheable : Bool)
    (salt : Str) (hs : salt ≠ []) :
    let withSalt := BuildActionTail cfg reapi command products
      outputDirectories remoteEnvironment platformProperties
      workingDirectory inputRootDigest uncacheable salt
    let noSalt := BuildActionTail cfg reapi command products
      outputDirectories remoteEnvironment platformProperties
      workingDirectory inputRootDigest uncacheable []
    withSalt.1 = noSalt.1 ∧
    withSalt.2.commandDigest = noSalt.2.commandDigest ∧
    withSalt.2.inputRootDigest = noSalt.2.inputRootDigest ∧
    withSalt.2.doNotCache = noSalt.2.doNotCache ∧
    withSalt.2.platform = noSalt.2.platform ∧
    withSalt.2.salt = some salt ∧ noSalt.2.salt = none ∧
    withSalt.2 ≠ noSalt.2 := by
  intro withSalt noSalt
  refine ⟨rfl, rfl, rfl, rfl, rfl, ?_, rfl, ?_⟩
  · show (if salt ≠ [] then some salt else none) = some salt
    rw [if_pos hs]
  · intro h
    have hsalt := congrArg ActionProto.salt h
    show False
    rw [show withSalt.2.salt = (if salt ≠ [] then some salt else none)
      from rfl, if_pos hs] at hsalt
    have h2 : noSalt.2.salt = (none : Option Str) := rfl
    rw [h2] at hsalt
    exact Option.noConfusion hsalt

theorem action_salt_frame_witness :
    let withSalt := BuildActionTail ⟨[], [], false⟩ (2, 2) [str "gcc"]
      [str "a.o"] [] [] [(str "ISA", str "x86-64")] (str "/w") (str "root")
      false (str "s")
    let noSalt := BuildActionTail ⟨[], [], false⟩ (2, 2) [str "gcc"]
      [str "a.o"] [] [] [(str "ISA", str "x86-64")] (str "/w") (str "root")
      false []
    withSalt.1 = noSalt.1 ∧
    withSalt.2.commandDigest = noSalt.2.commandDigest ∧
    withSalt.2.inputRootDigest = noSalt.2.inputRootDigest ∧
    withSalt.2.doNotCache = noSalt.2.doNotCache ∧
    withSalt.2.platform = noSalt.2.platform ∧
    withSalt.2.salt = some (str "s") ∧ noSalt.2.salt = none ∧
    withSalt.2 ≠ noSalt.2 :=
  action_salt_frame ⟨[], [], false⟩ (2, 2) [str "gcc"] [str "a.o"] [] []
    [(str "ISA", str "x86-64")] (str "/w") (str "root") false (str "s")
    (by decide)

/-- C3: field selection by the two version switches, over the supported
REAPI versions 2.0, 2.1 and 2.2: the Command message populates
`output_paths` exactly when the version is at least 2.1 (and then leaves
the split `output_files`/`output_directories` fields empty, and vice
versa), and the Action message carries a copy of the platform exactly
when the version is at least 2.2. -/
theorem reapi_version_field_selection (v : Nat × Nat)
    (hv : v = (2, 0) ∨ v = (2, 1) ∨ v = (2, 2)) (cfg : PathConfig)
    (command : List Str) (outputFiles outputDirectories : List Str)
    (remoteEnvironment platformProperties : List (Str × Str))
    (workingDirectory inputRootDigest : Str) (uncacheable : Bool)
    (salt : Str) :
    ((populateCommandProto v command outputFiles outputDirectories
        remoteEnvironment platformProperties workingDirectory).outputPaths,
      (populateCommandProto v command outputFiles outputDirectories
        remoteEnvironment platformProperties workingDirectory).outputFiles,
      (populateCommandProto v command outputFiles outputDirectories
        remoteEnvironment platformProperties
        workingDirectory).outputDirectories) =
      (if v = (2, 0) then ([], outputFiles, outputDirectories)
       else (outputFiles ++ outputDirectories, [], [])) ∧
    (BuildActionTail cfg v command outputFiles outputDirectories
        remoteEnvironment platformProperties workingDirectory
        inputRootDigest uncacheable salt).2.platform =
      (if v = (2, 2) then
        some (generateCommandProto cfg v command outputFiles
          outputDirectories remoteEnvironment platformProperties
          workingDirectory).platform
       else none) := by
  rcases hv with h | h | h <;> subst h <;> exact ⟨rfl, rfl⟩

theorem reapi_version_field_selection_witness :
    ((populateCommandProto (2, 1) [str "gcc"] [str "a.o"] [str "d"] []
        [(str "k", str "v")] (str "/w")).outputPaths,
      (populateCommandProto (2, 1) [str "gcc"] [str "a.o"] [str "d"] []
        [(str "k", str "v")] (str "/w")).outputFiles,
      (populateCommandProto (2, 1) [str "gcc"] [str "a.o"] [str "d"] []
        [(str "k", str "v")] (str "/w")).outputDirectories) =
      (if ((2, 1) : Nat × Nat) = (2, 0) then
        ([], [str "a.o"], [str "d"])
       else ([str "a.o"] ++ [str "d"], [], [])) ∧
    (BuildActionTail ⟨[], [], false⟩ (2, 1) [str "gcc"] [str "a.o"]
        [str "d"] [] [(str "k", str "v")] (str "/w") (str "root") false
        (str "s")).2.platform =
      (if ((2, 1) : Nat × Nat) = (2, 2) then
        some (generateCommandProto ⟨[], [], false⟩ (2, 1) [str "gcc"]
          [str "a.o"] [str "d"] [] [(str "k", str "v")] (str "/w")).platform
       else none) :=
  reapi_version_field_selection (2, 1) (Or.inr (Or.inl rfl)) ⟨[], [], false⟩
    [str "gcc"] [str "a.o"] [str "d"] [] [(str "k", str "v")] (str "/w")
    (str "root") false (str "s")

end Recc
